import Mathlib

/-!
Verification of the corridor-constrained routing core of the wayfinding
repository (`src/app.py`).

The embedding models:
* the `networkx.Graph` values built by `load_graph` (labelled nodes with
  latitude/longitude attributes, undirected weighted edges, one weight per
  unordered endpoint pair),
* the corridor predicate `is_cxx` (app.py:170-171),
* `nx.dijkstra_path` as used by `shortest_path_via_cxx` (app.py:178),
  including its exception interface (`NodeNotFound` for a missing source,
  `NetworkXNoPath` for a missing or unreachable target),
* `shortest_path_via_cxx` itself (app.py:166-188), and
* the "use my location" branch of the `index` view (app.py:306-343), which
  injects the synthetic `_user_location_` node.

Python floats are modelled as exact rationals.  The transcendental helper
`haversine_m` (app.py:80-88) is passed to the anchor-flow model as an oracle
parameter, since none of the verified properties depend on its values.
-/

namespace Wayfinding

/-- Node attributes stored by `load_graph` (app.py:139): latitude, longitude
and a floor tag. -/
structure NodeAttrs where
  lat : ℚ
  lon : ℚ
  level : String
deriving Repr, DecidableEq

/-- An undirected weighted `networkx.Graph` as used by app.py: an association
list of labelled nodes and a list of weighted edges.  Every edge added by the
source has both endpoints present as nodes, and at most one weight is kept per
unordered endpoint pair (a repeated `add_edge` overwrites the weight). -/
structure Graph where
  nodes : List (String × NodeAttrs)
  edges : List (String × String × ℚ)
deriving Repr, DecidableEq

/-- The labels of the graph's nodes (`G.nodes` iteration order in Python). -/
def Graph.labels (g : Graph) : List String := g.nodes.map Prod.fst

/-- Membership test `label in G.nodes`. -/
def Graph.hasNode (g : Graph) (l : String) : Bool := decide (l ∈ g.labels)

/-- Whether an edge record joins the unordered pair `{u, v}`. -/
def edgeMatches (u v : String) (e : String × String × ℚ) : Bool :=
  (e.1 == u && e.2.1 == v) || (e.1 == v && e.2.1 == u)

/-- The weight lookup `G[u][v]["weight"]`: `none` models a `KeyError`. -/
def Graph.edgeWeight? (g : Graph) (u v : String) : Option ℚ :=
  (g.edges.find? (edgeMatches u v)).map (fun e => e.2.2)

/-- Total version of the weight lookup (used only where the source's lookup is
proved to succeed). -/
def Graph.weight (g : Graph) (u v : String) : ℚ := (g.edgeWeight? u v).getD 0

/-- Adjacency: `G.has_edge(u, v)`. -/
def Graph.adj (g : Graph) (u v : String) : Bool := g.edges.any (edgeMatches u v)

/-- The neighbours of `u`, in edge-list order (`G.adj[u]`). -/
def Graph.neighbors (g : Graph) (u : String) : List String :=
  g.edges.filterMap (fun e =>
    if e.1 == u then some e.2.1 else if e.2.1 == u then some e.1 else none)

/-- `G.add_node(l, **attrs)`: inserts a node, or updates the attributes of an
existing one (app.py:325). -/
def Graph.addNode (g : Graph) (l : String) (a : NodeAttrs) : Graph :=
  if g.hasNode l then
    { g with nodes := g.nodes.map (fun p => if p.1 == l then (l, a) else p) }
  else
    { g with nodes := g.nodes ++ [(l, a)] }

/-- `G.add_edge(u, v, weight=w)` (app.py:326): overwrites the weight of an
existing `{u, v}` edge, otherwise appends a new edge.  Every call site in the
source ensures both endpoints are already nodes, so only the edge list is
touched. -/
def Graph.addEdge (g : Graph) (u v : String) (w : ℚ) : Graph :=
  if g.edges.any (edgeMatches u v) then
    { g with edges := g.edges.map (fun e => if edgeMatches u v e then (e.1, e.2.1, w) else e) }
  else
    { g with edges := g.edges ++ [(u, v, w)] }

/-- `G.subgraph(allowed).copy()` (app.py:175): the induced subgraph over the
nodes of `g` satisfying `keep`; an edge survives iff both endpoints survive. -/
def Graph.subgraph (g : Graph) (keep : String → Bool) : Graph :=
  let ns := g.nodes.filter (fun p => keep p.1)
  let ls := ns.map Prod.fst
  { nodes := ns
    edges := g.edges.filter (fun e => decide (e.1 ∈ ls) && decide (e.2.1 ∈ ls)) }

/-- The corridor predicate `is_cxx` (app.py:170-171):
`bool(re.fullmatch(r"c\d{2,3}", str(n)))` — an anchored full match of `c`
followed by two or three digits. -/
def is_cxx (n : String) : Bool :=
  match n.data with
  | c :: ds => c == 'c' && ds.all (fun d => d.isDigit) && (ds.length == 2 || ds.length == 3)
  | [] => false

/-- The specification's reading of corridor classification (`spec.md` §4.3):
the whole label matches `^c\d{2,3}$`. -/
def matchesCxxSpec (s : String) : Prop :=
  ∃ ds : List Char, s.data = 'c' :: ds ∧ (∀ c ∈ ds, c.isDigit = true) ∧
    (ds.length = 2 ∨ ds.length = 3)

/-! ### Basic lemmas about the graph embedding -/

theorem hasNode_iff {g : Graph} {l : String} : g.hasNode l = true ↔ l ∈ g.labels := by
  simp [Graph.hasNode]

theorem edgeMatches_comm (u v : String) (e : String × String × ℚ) :
    edgeMatches u v e = edgeMatches v u e := by
  simp only [edgeMatches]
  exact Bool.or_comm _ _

theorem edgeMatches_iff {u v : String} {e : String × String × ℚ} :
    edgeMatches u v e = true ↔ (e.1 = u ∧ e.2.1 = v) ∨ (e.1 = v ∧ e.2.1 = u) := by
  simp [edgeMatches]

theorem adj_iff {g : Graph} {u v : String} :
    g.adj u v = true ↔ ∃ e ∈ g.edges, edgeMatches u v e = true := by
  simp [Graph.adj]

theorem adj_symm {g : Graph} {u v : String} : g.adj u v = g.adj v u := by
  unfold Graph.adj
  congr 1
  funext e
  exact edgeMatches_comm u v e

theorem find?_eq_of_pred_eq {α : Type} (l : List α) (p q : α → Bool)
    (h : ∀ x, p x = q x) : l.find? p = l.find? q := by
  induction l with
  | nil => rfl
  | cons a t ih =>
    simp only [List.find?]
    rw [h a]
    cases q a
    · exact ih
    · rfl

theorem edgeWeight?_symm (g : Graph) (u v : String) :
    g.edgeWeight? u v = g.edgeWeight? v u := by
  unfold Graph.edgeWeight?
  rw [find?_eq_of_pred_eq g.edges (edgeMatches u v) (edgeMatches v u) (edgeMatches_comm u v)]

theorem weight_symm (g : Graph) (u v : String) : g.weight u v = g.weight v u := by
  unfold Graph.weight
  rw [edgeWeight?_symm]

theorem mem_neighbors_iff {g : Graph} {u v : String} :
    v ∈ g.neighbors u ↔ g.adj u v = true := by
  simp only [Graph.neighbors, List.mem_filterMap, adj_iff]
  constructor
  · rintro ⟨e, he, hfe⟩
    refine ⟨e, he, ?_⟩
    rw [edgeMatches_iff]
    by_cases h1 : e.1 = u
    · simp only [h1, beq_self_eq_true, if_true, Option.some.injEq] at hfe
      exact Or.inl ⟨h1, hfe⟩
    · simp only [beq_iff_eq, h1, if_false] at hfe
      by_cases h2 : e.2.1 = u
      · simp only [h2, if_true, Option.some.injEq] at hfe
        exact Or.inr ⟨hfe, h2⟩
      · simp [h2] at hfe
  · rintro ⟨e, he, hm⟩
    refine ⟨e, he, ?_⟩
    rw [edgeMatches_iff] at hm
    rcases hm with ⟨h1, h2⟩ | ⟨h1, h2⟩
    · simp [h1, h2]
    · by_cases hu : e.1 = u
      · have huv : u = v := by rw [← hu, h1]
        simp [hu, h2, huv]
      · have hvu : ¬(v = u) := fun hh => hu (h1.trans hh)
        simp [h1, hvu, h2]

/-- If an edge weight exists then some edge record joins the pair. -/
theorem edgeWeight?_some_mem {g : Graph} {u v : String} {w : ℚ}
    (h : g.edgeWeight? u v = some w) :
    ∃ e ∈ g.edges, edgeMatches u v e = true ∧ e.2.2 = w := by
  unfold Graph.edgeWeight? at h
  cases hf : g.edges.find? (edgeMatches u v) with
  | none => rw [hf] at h; simp at h
  | some e =>
    rw [hf] at h
    simp only [Option.map_some', Option.some.injEq] at h
    exact ⟨e, List.mem_of_find?_eq_some hf, List.find?_some hf, h⟩

theorem adj_edgeWeight?_isSome {g : Graph} {u v : String} (h : g.adj u v = true) :
    ∃ w, g.edgeWeight? u v = some w := by
  rw [adj_iff] at h
  obtain ⟨e, he, hm⟩ := h
  unfold Graph.edgeWeight?
  cases hf : g.edges.find? (edgeMatches u v) with
  | none =>
    exfalso
    have := List.find?_eq_none.mp hf e he
    rw [hm] at this
    exact this rfl
  | some e2 => exact ⟨e2.2.2, by simp⟩

/-- Non-negative edge records give non-negative weight lookups. -/
theorem weight_nonneg {g : Graph} (hnn : ∀ e ∈ g.edges, 0 ≤ e.2.2) (u v : String) :
    0 ≤ g.weight u v := by
  unfold Graph.weight Graph.edgeWeight?
  cases hf : g.edges.find? (edgeMatches u v) with
  | none => simp
  | some e =>
    simp only [Option.map_some', Option.getD_some]
    exact hnn e (List.mem_of_find?_eq_some hf)

/-! ### Subgraph lemmas -/

theorem mem_subgraph_labels {g : Graph} {keep : String → Bool} {x : String} :
    x ∈ (g.subgraph keep).labels ↔ x ∈ g.labels ∧ keep x = true := by
  simp only [Graph.subgraph, Graph.labels, List.mem_map, List.mem_filter]
  constructor
  · rintro ⟨p, ⟨hp, hk⟩, rfl⟩
    exact ⟨⟨p, hp, rfl⟩, hk⟩
  · rintro ⟨⟨p, hp, rfl⟩, hk⟩
    exact ⟨p, ⟨hp, hk⟩, rfl⟩

theorem subgraph_edges_sub {g : Graph} {keep : String → Bool} {e : String × String × ℚ}
    (h : e ∈ (g.subgraph keep).edges) : e ∈ g.edges := by
  simp only [Graph.subgraph, List.mem_filter] at h
  exact h.1

theorem subgraph_closed {g : Graph} {keep : String → Bool} :
    ∀ e ∈ (g.subgraph keep).edges,
      e.1 ∈ (g.subgraph keep).labels ∧ e.2.1 ∈ (g.subgraph keep).labels := by
  intro e he
  simp only [Graph.subgraph, List.mem_filter, Bool.and_eq_true, decide_eq_true_eq] at he
  simpa [Graph.subgraph, Graph.labels] using he.2

theorem subgraph_adj_imp {g : Graph} {keep : String → Bool} {u v : String}
    (h : (g.subgraph keep).adj u v = true) : g.adj u v = true := by
  rw [adj_iff] at h ⊢
  obtain ⟨e, he, hm⟩ := h
  exact ⟨e, subgraph_edges_sub he, hm⟩

theorem find?_filter_of_imp {α : Type} (l : List α) (p q : α → Bool)
    (h : ∀ x, p x = true → q x = true) : (l.filter q).find? p = l.find? p := by
  induction l with
  | nil => rfl
  | cons a t ih =>
    by_cases hq : q a = true
    · rw [List.filter_cons_of_pos hq]
      simp only [List.find?]
      cases hpa : p a
      · exact ih
      · rfl
    · rw [List.filter_cons_of_neg hq]
      have hpa : p a = false := by
        cases hpc : p a
        · rfl
        · exact absurd (h a hpc) hq
      simp only [List.find?, hpa]
      exact ih

/-- On pairs adjacent in the subgraph, the weight lookup agrees with the full
graph (the subgraph "shares the same weights", spec.md §4.4 step 5). -/
theorem subgraph_edgeWeight?_eq {g : Graph} {keep : String → Bool} {u v : String}
    (h : (g.subgraph keep).adj u v = true) :
    (g.subgraph keep).edgeWeight? u v = g.edgeWeight? u v := by
  rw [adj_iff] at h
  obtain ⟨e0, he0, hm0⟩ := h
  have hsub := he0
  simp only [Graph.subgraph, List.mem_filter, Bool.and_eq_true, decide_eq_true_eq] at hsub
  have hls : u ∈ (g.subgraph keep).labels ∧ v ∈ (g.subgraph keep).labels := by
    have hcl := subgraph_closed e0 he0
    rw [edgeMatches_iff] at hm0
    rcases hm0 with ⟨h1, h2⟩ | ⟨h1, h2⟩
    · exact ⟨h1 ▸ hcl.1, h2 ▸ hcl.2⟩
    · exact ⟨h2 ▸ hcl.2, h1 ▸ hcl.1⟩
  unfold Graph.edgeWeight?
  congr 1
  have hstep : ∀ x : String × String × ℚ, edgeMatches u v x = true →
      (decide (x.1 ∈ ((g.subgraph keep).nodes.map Prod.fst)) &&
        decide (x.2.1 ∈ ((g.subgraph keep).nodes.map Prod.fst))) = true := by
    intro x hx
    rw [edgeMatches_iff] at hx
    have hl1 : u ∈ (g.subgraph keep).nodes.map Prod.fst := hls.1
    have hl2 : v ∈ (g.subgraph keep).nodes.map Prod.fst := hls.2
    rcases hx with ⟨h1, h2⟩ | ⟨h1, h2⟩ <;> simp [h1, h2, hl1, hl2]
  have : (g.subgraph keep).edges =
      g.edges.filter (fun e => decide (e.1 ∈ ((g.subgraph keep).nodes.map Prod.fst)) &&
        decide (e.2.1 ∈ ((g.subgraph keep).nodes.map Prod.fst))) := by
    simp [Graph.subgraph]
  rw [this]
  exact find?_filter_of_imp g.edges (edgeMatches u v) _ hstep

theorem subgraph_weight_eq {g : Graph} {keep : String → Bool} {u v : String}
    (h : (g.subgraph keep).adj u v = true) :
    (g.subgraph keep).weight u v = g.weight u v := by
  unfold Graph.weight
  rw [subgraph_edgeWeight?_eq h]

/-! ### Walks in a graph -/

/-- Consecutive elements are all adjacent. -/
def chainAdjB (g : Graph) : List String → Bool
  | a :: b :: rest => g.adj a b && chainAdjB g (b :: rest)
  | _ => true

/-- The sum of edge weights along a node sequence. -/
def walkWeight (g : Graph) : List String → ℚ
  | a :: b :: rest => g.weight a b + walkWeight g (b :: rest)
  | _ => 0

/-- A walk from `s` to `t` inside `g`: non-empty, endpoints as given, all
nodes present in the graph, consecutive nodes adjacent. -/
def isWalk (g : Graph) (s t : String) (p : List String) : Prop :=
  p.head? = some s ∧ p.getLast? = some t ∧ (∀ x ∈ p, x ∈ g.labels) ∧ chainAdjB g p = true

instance (g : Graph) (s t : String) (p : List String) : Decidable (isWalk g s t p) := by
  unfold isWalk
  infer_instance

theorem chainAdjB_cons {g : Graph} {a b : String} {r : List String} :
    chainAdjB g (a :: b :: r) = (g.adj a b && chainAdjB g (b :: r)) := rfl

theorem walkWeight_cons {g : Graph} {a b : String} {r : List String} :
    walkWeight g (a :: b :: r) = g.weight a b + walkWeight g (b :: r) := rfl

theorem chainAdjB_concat {g : Graph} {p : List String} {u v : String}
    (hc : chainAdjB g p = true) (hl : p.getLast? = some u) (ha : g.adj u v = true) :
    chainAdjB g (p ++ [v]) = true := by
  induction p with
  | nil => simp at hl
  | cons a t ih =>
    cases t with
    | nil =>
      simp only [List.getLast?_singleton, Option.some.injEq] at hl
      subst hl
      simpa [chainAdjB] using ha
    | cons b r =>
      rw [chainAdjB_cons, Bool.and_eq_true] at hc
      have hl2 : (b :: r).getLast? = some u := by
        simpa [List.getLast?_cons_cons] using hl
      have := ih hc.2 hl2
      simpa [chainAdjB_cons, hc.1] using this

theorem walkWeight_concat {g : Graph} {p : List String} {u v : String}
    (hl : p.getLast? = some u) :
    walkWeight g (p ++ [v]) = walkWeight g p + g.weight u v := by
  induction p with
  | nil => simp at hl
  | cons a t ih =>
    cases t with
    | nil =>
      simp only [List.getLast?_singleton, Option.some.injEq] at hl
      subst hl
      simp [walkWeight]
    | cons b r =>
      have hl2 : (b :: r).getLast? = some u := by
        simpa [List.getLast?_cons_cons] using hl
      have := ih hl2
      simp only [List.cons_append] at this ⊢
      rw [walkWeight_cons, this, walkWeight_cons]
      ring

theorem walkWeight_nonneg {g : Graph} (hnn : ∀ e ∈ g.edges, 0 ≤ e.2.2) :
    ∀ p : List String, 0 ≤ walkWeight g p := by
  intro p
  induction p with
  | nil => simp [walkWeight]
  | cons a t ih =>
    cases t with
    | nil => simp [walkWeight]
    | cons b r =>
      rw [walkWeight_cons]
      exact add_nonneg (weight_nonneg hnn a b) ih

/-- Along a chain of subgraph-adjacent nodes, the subgraph walk weight equals
the full-graph walk weight. -/
theorem subgraph_walkWeight_eq {g : Graph} {keep : String → Bool} :
    ∀ p : List String, chainAdjB (g.subgraph keep) p = true →
      walkWeight (g.subgraph keep) p = walkWeight g p := by
  intro p
  induction p with
  | nil => intro _; rfl
  | cons a t ih =>
    cases t with
    | nil => intro _; rfl
    | cons b r =>
      intro hc
      rw [chainAdjB_cons, Bool.and_eq_true] at hc
      rw [walkWeight_cons, walkWeight_cons, ih hc.2, subgraph_weight_eq hc.1]

/-! ### A model of `nx.dijkstra_path`

`shortest_path_via_cxx` calls `nx.dijkstra_path(H, start, end, weight="weight")`
(app.py:178).  The library routine raises `nx.NodeNotFound` when the source is
not in the graph, returns `[target]` when `target == source`, and otherwise
runs Dijkstra's algorithm, raising `nx.NetworkXNoPath` when the target is
absent or unreachable.  The model below implements Dijkstra as a fuel-bounded
loop over a list of settled entries, each carrying the node, its distance from
the source and a witness path; it is proved below to return walks of minimal
weight, which is the documented contract of the library routine. -/

/-- A settled Dijkstra entry: a node, its tentative distance from the source,
and the path (source first) realising that distance. -/
structure Entry where
  node : String
  dist : ℚ
  path : List String
deriving Repr, DecidableEq

/-- Whether `v` is already settled. -/
def settledHas (S : List Entry) (v : String) : Bool := S.any (fun en => en.node == v)

/-- Candidate extensions of one settled entry through its unsettled neighbours. -/
def candsFor (g : Graph) (S : List Entry) (en : Entry) : List Entry :=
  (g.neighbors en.node).filterMap (fun v =>
    if settledHas S v then none
    else some ⟨v, en.dist + g.weight en.node v, en.path ++ [v]⟩)

/-- All candidate extensions of the settled set. -/
def candidatesOf (g : Graph) (S : List Entry) : List Entry :=
  S.foldr (fun en acc => candsFor g S en ++ acc) []

/-- The first minimum of a list under a rational key (Python `min` with `key=`:
ties keep the earliest element). -/
def firstMinBy {α : Type} (key : α → ℚ) : List α → Option α
  | [] => none
  | x :: xs => some (xs.foldl (fun best c => if key c < key best then c else best) x)

/-- The Dijkstra main loop: settle the closest candidate until none remain. -/
def dijkstraLoop (g : Graph) : Nat → List Entry → List Entry
  | 0, S => S
  | fuel + 1, S =>
    match firstMinBy Entry.dist (candidatesOf g S) with
    | none => S
    | some e => dijkstraLoop g fuel (S ++ [e])

/-- The whole single-source run from `src`. -/
def dijkstraRun (g : Graph) (src : String) : List Entry :=
  dijkstraLoop g g.labels.length [⟨src, 0, [src]⟩]

/-- The two `networkx` exceptions that `nx.dijkstra_path` can raise. -/
inductive NxErr where
  | nodeNotFound
  | noPath
deriving Repr, DecidableEq

/-- Model of `nx.dijkstra_path(g, src, tgt, weight="weight")`. -/
def dijkstra_path (g : Graph) (src tgt : String) : Except NxErr (List String) :=
  if g.hasNode src then
    if tgt == src then .ok [tgt]
    else
      match (dijkstraRun g src).find? (fun en => en.node == tgt) with
      | some en => .ok en.path
      | none => .error .noPath
  else .error .nodeNotFound

/-- Edge lists whose endpoints are all nodes (true of every graph the source
builds, and of every induced subgraph by construction). -/
def GClosed (g : Graph) : Prop := ∀ e ∈ g.edges, e.1 ∈ g.labels ∧ e.2.1 ∈ g.labels

theorem subgraph_gclosed (g : Graph) (keep : String → Bool) : GClosed (g.subgraph keep) :=
  fun e he => subgraph_closed e he

theorem adj_right_mem {g : Graph} (hcl : GClosed g) {u v : String}
    (h : g.adj u v = true) : v ∈ g.labels := by
  rw [adj_iff] at h
  obtain ⟨e, he, hm⟩ := h
  rw [edgeMatches_iff] at hm
  rcases hm with ⟨_, h2⟩ | ⟨h1, _⟩
  · exact h2 ▸ (hcl e he).2
  · exact h1 ▸ (hcl e he).1

/-! ### Dijkstra invariants -/

/-- Structural invariant of the settled list: each entry's path is a duplicate-
free walk from the source to the entry's node, of weight the entry's distance,
visiting only settled nodes. -/
structure DBase (g : Graph) (src : String) (S : List Entry) : Prop where
  src_mem : (⟨src, 0, [src]⟩ : Entry) ∈ S
  keysNodup : (S.map Entry.node).Nodup
  mem_labels : ∀ en ∈ S, en.node ∈ g.labels
  head_eq : ∀ en ∈ S, en.path.head? = some src
  last_eq : ∀ en ∈ S, en.path.getLast? = some en.node
  chain : ∀ en ∈ S, chainAdjB g en.path = true
  wt : ∀ en ∈ S, walkWeight g en.path = en.dist
  settledAll : ∀ en ∈ S, ∀ x ∈ en.path, settledHas S x = true
  pathNodup : ∀ en ∈ S, en.path.Nodup

/-- Optimality invariant: every settled distance is a lower bound on the
weight of every walk from the source to that node. -/
def DOpt (g : Graph) (src : String) (S : List Entry) : Prop :=
  ∀ en ∈ S, ∀ q : List String, q.head? = some src → q.getLast? = some en.node →
    chainAdjB g q = true → en.dist ≤ walkWeight g q

theorem settledHas_iff {S : List Entry} {v : String} :
    settledHas S v = true ↔ ∃ en ∈ S, en.node = v := by
  simp [settledHas, List.any_eq_true]

theorem settledHas_append {S T : List Entry} {v : String} :
    settledHas (S ++ T) v = (settledHas S v || settledHas T v) := by
  simp [settledHas, List.any_append]

theorem mem_candsFor_iff {g : Graph} {S : List Entry} {en e : Entry} :
    e ∈ candsFor g S en ↔ ∃ v, v ∈ g.neighbors en.node ∧ settledHas S v = false ∧
      e = ⟨v, en.dist + g.weight en.node v, en.path ++ [v]⟩ := by
  simp only [candsFor, List.mem_filterMap]
  constructor
  · rintro ⟨v, hv, hsome⟩
    by_cases hs : settledHas S v
    · simp [hs] at hsome
    · simp only [Bool.not_eq_true] at hs
      rw [if_neg (by simp [hs])] at hsome
      exact ⟨v, hv, hs, (Option.some.injEq _ _ ▸ hsome).symm⟩
  · rintro ⟨v, hv, hs, rfl⟩
    exact ⟨v, hv, by rw [if_neg (by simp [hs])]⟩

theorem mem_candidatesOf_iff {g : Graph} {S : List Entry} {e : Entry} :
    e ∈ candidatesOf g S ↔ ∃ en ∈ S, e ∈ candsFor g S en := by
  have main : ∀ L : List Entry,
      e ∈ L.foldr (fun en acc => candsFor g S en ++ acc) [] ↔
        ∃ en ∈ L, e ∈ candsFor g S en := by
    intro L
    induction L with
    | nil => simp
    | cons a t ih => simp [List.foldr_cons, List.mem_append, ih]
  exact main S

theorem firstMinBy_eq_none_iff {α : Type} {key : α → ℚ} {l : List α} :
    firstMinBy key l = none ↔ l = [] := by
  cases l <;> simp [firstMinBy]

theorem foldlMin_spec {α : Type} (key : α → ℚ) :
    ∀ (l : List α) (b : α),
      (l.foldl (fun best c => if key c < key best then c else best) b = b ∨
        l.foldl (fun best c => if key c < key best then c else best) b ∈ l) ∧
      key (l.foldl (fun best c => if key c < key best then c else best) b) ≤ key b ∧
      ∀ y ∈ l, key (l.foldl (fun best c => if key c < key best then c else best) b) ≤ key y := by
  intro l
  induction l with
  | nil => intro b; exact ⟨Or.inl rfl, le_refl _, by simp⟩
  | cons a t ih =>
    intro b
    simp only [List.foldl_cons]
    by_cases h : key a < key b
    · rw [if_pos h]
      obtain ⟨hmem, hle, hall⟩ := ih a
      refine ⟨?_, le_trans hle (le_of_lt h), ?_⟩
      · rcases hmem with h1 | h1
        · exact Or.inr (by simp [h1])
        · exact Or.inr (List.mem_cons_of_mem _ h1)
      · intro y hy
        rcases List.mem_cons.mp hy with rfl | hy2
        · exact hle
        · exact hall y hy2
    · rw [if_neg h]
      obtain ⟨hmem, hle, hall⟩ := ih b
      refine ⟨?_, hle, ?_⟩
      · rcases hmem with h1 | h1
        · exact Or.inl h1
        · exact Or.inr (List.mem_cons_of_mem _ h1)
      · intro y hy
        rcases List.mem_cons.mp hy with rfl | hy2
        · exact le_trans hle (not_lt.mp h)
        · exact hall y hy2

theorem firstMinBy_mem {α : Type} {key : α → ℚ} {l : List α} {x : α}
    (h : firstMinBy key l = some x) : x ∈ l := by
  cases l with
  | nil => simp [firstMinBy] at h
  | cons a t =>
    simp only [firstMinBy, Option.some.injEq] at h
    rcases (foldlMin_spec key t a).1 with h1 | h1
    · rw [← h, h1]; exact List.mem_cons_self a t
    · rw [← h]; exact List.mem_cons_of_mem _ h1

theorem firstMinBy_le {α : Type} {key : α → ℚ} {l : List α} {x : α}
    (h : firstMinBy key l = some x) : ∀ y ∈ l, key x ≤ key y := by
  cases l with
  | nil => simp [firstMinBy] at h
  | cons a t =>
    simp only [firstMinBy, Option.some.injEq] at h
    obtain ⟨_, hle, hall⟩ := foldlMin_spec key t a
    intro y hy
    rcases List.mem_cons.mp hy with rfl | hy2
    · exact h ▸ hle
    · exact h ▸ hall y hy2

theorem head?_concat {p : List String} {s v : String} (h : p.head? = some s) :
    (p ++ [v]).head? = some s := by
  cases p with
  | nil => simp at h
  | cons a t => simpa using h

theorem initial_base {g : Graph} {src : String} (hsrc : src ∈ g.labels) :
    DBase g src [⟨src, 0, [src]⟩] := by
  refine ⟨List.mem_singleton_self _, by simp, ?_, ?_, ?_, ?_, ?_, ?_, ?_⟩ <;>
    intro en hen <;> rw [List.mem_singleton] at hen <;> subst hen
  · exact hsrc
  · rfl
  · rfl
  · rfl
  · rfl
  · intro x hx
    rw [List.mem_singleton] at hx
    subst hx
    simp [settledHas]
  · simp

theorem initial_opt {g : Graph} {src : String} (hnn : ∀ e ∈ g.edges, 0 ≤ e.2.2) :
    DOpt g src [⟨src, 0, [src]⟩] := by
  intro en hen q _ _ _
  rw [List.mem_singleton] at hen
  subst hen
  exact walkWeight_nonneg hnn q

/-- Following a walk that starts at a settled node and ends at an unsettled
one, some candidate's distance bounds the settled distance plus the walk's
weight (the classical "frontier crossing" argument). -/
theorem crossing_from {g : Graph} {src : String} {S : List Entry}
    (hb : DBase g src S) (ho : DOpt g src S) (hnn : ∀ e ∈ g.edges, 0 ≤ e.2.2) :
    ∀ q : List String, ∀ enu : Entry, ∀ t : String,
      enu ∈ S → q.head? = some enu.node → q.getLast? = some t →
      chainAdjB g q = true → settledHas S t = false →
      ∃ c ∈ candidatesOf g S, c.dist ≤ enu.dist + walkWeight g q := by
  intro q
  induction q with
  | nil => intro enu t _ hh _ _ _; simp at hh
  | cons a rest ih =>
    intro enu t henu hh hl hc hts
    simp only [List.head?_cons, Option.some.injEq] at hh
    subst hh
    cases rest with
    | nil =>
      simp only [List.getLast?_singleton, Option.some.injEq] at hl
      exfalso
      rw [← hl] at hts
      have : settledHas S enu.node = true := settledHas_iff.mpr ⟨enu, henu, rfl⟩
      rw [this] at hts
      exact Bool.true_eq_false.mp hts
    | cons w r2 =>
      rw [chainAdjB_cons, Bool.and_eq_true] at hc
      have hl2 : (w :: r2).getLast? = some t := by
        simpa [List.getLast?_cons_cons] using hl
      by_cases hw : settledHas S w = true
      · obtain ⟨enw, henw, hnode⟩ := settledHas_iff.mp hw
        obtain ⟨c, hcmem, hcle⟩ := ih enw t henw (by simp [hnode]) hl2 hc.2 hts
        refine ⟨c, hcmem, ?_⟩
        have hwalk : enw.dist ≤ enu.dist + g.weight enu.node w := by
          have hhq := head?_concat (hb.head_eq enu henu) (v := w)
          have hlq := List.getLast?_concat (l := enu.path) (a := w)
          have hcq := chainAdjB_concat (hb.chain enu henu) (hb.last_eq enu henu) hc.1
          have := ho enw henw (enu.path ++ [w]) hhq (by rw [hlq, hnode]) hcq
          rwa [walkWeight_concat (hb.last_eq enu henu), hb.wt enu henu] at this
        rw [walkWeight_cons]
        linarith
      · have hwf : settledHas S w = false := by
          cases hww : settledHas S w
          · rfl
          · exact absurd hww hw
        have hcand : (⟨w, enu.dist + g.weight enu.node w, enu.path ++ [w]⟩ : Entry) ∈
            candidatesOf g S := by
          rw [mem_candidatesOf_iff]
          exact ⟨enu, henu, mem_candsFor_iff.mpr
            ⟨w, mem_neighbors_iff.mpr hc.1, hwf, rfl⟩⟩
        refine ⟨_, hcand, ?_⟩
        have h0 : 0 ≤ walkWeight g (w :: r2) := walkWeight_nonneg hnn _
        rw [walkWeight_cons]
        simp only []
        linarith

/-- The structural invariant is preserved by settling a minimal candidate. -/
theorem step_base {g : Graph} {src : String} {S : List Entry} {e : Entry}
    (hcl : GClosed g) (hb : DBase g src S)
    (he : firstMinBy Entry.dist (candidatesOf g S) = some e) : DBase g src (S ++ [e]) := by
  obtain ⟨en, hen, hcf⟩ := mem_candidatesOf_iff.mp (firstMinBy_mem he)
  obtain ⟨v, hv, hvs, rfl⟩ := mem_candsFor_iff.mp hcf
  have hadj : g.adj en.node v = true := mem_neighbors_iff.mp hv
  refine ⟨List.mem_append_left _ hb.src_mem, ?_, ?_, ?_, ?_, ?_, ?_, ?_, ?_⟩
  · rw [List.map_append, List.nodup_append]
    refine ⟨hb.keysNodup, List.nodup_singleton _, ?_⟩
    intro x hx hx2
    simp only [List.map_cons, List.map_nil, List.mem_singleton] at hx2
    rw [hx2] at hx
    have : settledHas S v = true := by
      rw [List.mem_map] at hx
      obtain ⟨enx, henx, hnx⟩ := hx
      exact settledHas_iff.mpr ⟨enx, henx, hnx⟩
    rw [this] at hvs
    exact Bool.true_eq_false.mp hvs
  · intro en2 hen2
    rcases List.mem_append.mp hen2 with h1 | h1
    · exact hb.mem_labels en2 h1
    · rw [List.mem_singleton] at h1
      subst h1
      exact adj_right_mem hcl hadj
  · intro en2 hen2
    rcases List.mem_append.mp hen2 with h1 | h1
    · exact hb.head_eq en2 h1
    · rw [List.mem_singleton] at h1
      subst h1
      exact head?_concat (hb.head_eq en hen)
  · intro en2 hen2
    rcases List.mem_append.mp hen2 with h1 | h1
    · exact hb.last_eq en2 h1
    · rw [List.mem_singleton] at h1
      subst h1
      exact List.getLast?_concat _
  · intro en2 hen2
    rcases List.mem_append.mp hen2 with h1 | h1
    · exact hb.chain en2 h1
    · rw [List.mem_singleton] at h1
      subst h1
      exact chainAdjB_concat (hb.chain en hen) (hb.last_eq en hen) hadj
  · intro en2 hen2
    rcases List.mem_append.mp hen2 with h1 | h1
    · exact hb.wt en2 h1
    · rw [List.mem_singleton] at h1
      subst h1
      simp only []
      rw [walkWeight_concat (hb.last_eq en hen), hb.wt en hen]
  · intro en2 hen2 x hx
    have mono : ∀ y : String, settledHas S y = true →
        settledHas (S ++ [(⟨v, en.dist + g.weight en.node v, en.path ++ [v]⟩ : Entry)]) y =
          true := by
      intro y hy
      rw [settledHas_append, hy]
      rfl
    rcases List.mem_append.mp hen2 with h1 | h1
    · exact mono x (hb.settledAll en2 h1 x hx)
    · rw [List.mem_singleton] at h1
      subst h1
      rcases List.mem_append.mp hx with h2 | h2
      · exact mono x (hb.settledAll en hen x h2)
      · rw [List.mem_singleton] at h2
        subst h2
        rw [settledHas_append, Bool.or_eq_true]
        right
        simp [settledHas]
  · intro en2 hen2
    rcases List.mem_append.mp hen2 with h1 | h1
    · exact hb.pathNodup en2 h1
    · rw [List.mem_singleton] at h1
      subst h1
      simp only []
      rw [List.nodup_append]
      refine ⟨hb.pathNodup en hen, List.nodup_singleton _, ?_⟩
      intro x hx hx2
      rw [List.mem_singleton] at hx2
      subst hx2
      have := hb.settledAll en hen x hx
      rw [this] at hvs
      exact Bool.true_eq_false.mp hvs

/-- The optimality invariant is preserved by settling a minimal candidate. -/
theorem step_opt {g : Graph} {src : String} {S : List Entry} {e : Entry}
    (hb : DBase g src S) (ho : DOpt g src S) (hnn : ∀ e2 ∈ g.edges, 0 ≤ e2.2.2)
    (he : firstMinBy Entry.dist (candidatesOf g S) = some e) : DOpt g src (S ++ [e]) := by
  intro en2 hen2 q hh hl hc
  rcases List.mem_append.mp hen2 with h1 | h1
  · exact ho en2 h1 q hh hl hc
  · rw [List.mem_singleton] at h1
    subst h1
    obtain ⟨en, hen, hcf⟩ := mem_candidatesOf_iff.mp (firstMinBy_mem he)
    obtain ⟨v, hv, hvs, hveq⟩ := mem_candsFor_iff.mp hcf
    have hsf : settledHas S en2.node = false := by rw [hveq]; exact hvs
    obtain ⟨c, hcmem, hcle⟩ :=
      crossing_from hb ho hnn q ⟨src, 0, [src]⟩ en2.node hb.src_mem hh hl hc hsf
    have hmin := firstMinBy_le he c hcmem
    simp only [] at hcle
    linarith

theorem loop_base {g : Graph} {src : String} (hcl : GClosed g) :
    ∀ fuel : Nat, ∀ S : List Entry, DBase g src S →
      DBase g src (dijkstraLoop g fuel S) := by
  intro fuel
  induction fuel with
  | zero => intro S hb; exact hb
  | succ n ih =>
    intro S hb
    rw [dijkstraLoop]
    cases he : firstMinBy Entry.dist (candidatesOf g S) with
    | none => exact hb
    | some e => exact ih _ (step_base hcl hb he)

theorem loop_opt {g : Graph} {src : String} (hcl : GClosed g)
    (hnn : ∀ e ∈ g.edges, 0 ≤ e.2.2) :
    ∀ fuel : Nat, ∀ S : List Entry, DBase g src S → DOpt g src S →
      DOpt g src (dijkstraLoop g fuel S) := by
  intro fuel
  induction fuel with
  | zero => intro S _ ho; exact ho
  | succ n ih =>
    intro S hb ho
    rw [dijkstraLoop]
    cases he : firstMinBy Entry.dist (candidatesOf g S) with
    | none => exact ho
    | some e => exact ih _ (step_base hcl hb he) (step_opt hb ho hnn he)

/-- Distinct graph labels not yet settled. -/
def ucount (g : Graph) (S : List Entry) : Nat :=
  (g.labels.dedup.filter (fun l => !(settledHas S l))).length

theorem filter_length_mono {α : Type} (l : List α) (p q : α → Bool)
    (h : ∀ x, q x = true → p x = true) : (l.filter q).length ≤ (l.filter p).length := by
  induction l with
  | nil => simp
  | cons a t ih =>
    by_cases hq : q a = true
    · rw [List.filter_cons_of_pos hq, List.filter_cons_of_pos (h a hq)]
      simpa using ih
    · rw [List.filter_cons_of_neg hq]
      by_cases hp : p a = true
      · rw [List.filter_cons_of_pos hp]
        simp only [List.length_cons]
        exact le_trans ih (Nat.le_succ _)
      · rw [List.filter_cons_of_neg hp]
        exact ih

theorem filter_length_lt {α : Type} {l : List α} (hnd : l.Nodup) (p q : α → Bool)
    (h : ∀ x, q x = true → p x = true) {v : α} (hv : v ∈ l)
    (hpv : p v = true) (hqv : q v = false) :
    (l.filter q).length < (l.filter p).length := by
  induction l with
  | nil => simp at hv
  | cons a t ih =>
    rw [List.nodup_cons] at hnd
    rcases List.mem_cons.mp hv with rfl | hvt
    · rw [List.filter_cons_of_pos hpv, List.filter_cons_of_neg (by simp [hqv])]
      simp only [List.length_cons]
      exact Nat.lt_succ_of_le (filter_length_mono t p q h)
    · by_cases hq : q a = true
      · rw [List.filter_cons_of_pos hq, List.filter_cons_of_pos (h a hq)]
        simp only [List.length_cons]
        exact Nat.succ_lt_succ (ih hnd.2 hvt)
      · rw [List.filter_cons_of_neg hq]
        by_cases hp : p a = true
        · rw [List.filter_cons_of_pos hp]
          exact Nat.lt_succ_of_lt (ih hnd.2 hvt)
        · rw [List.filter_cons_of_neg hp]
          exact ih hnd.2 hvt

theorem ucount_step {g : Graph} {S : List Entry} {e : Entry}
    (hlab : e.node ∈ g.labels) (hus : settledHas S e.node = false) :
    ucount g (S ++ [e]) < ucount g S := by
  unfold ucount
  refine filter_length_lt (List.nodup_dedup _)
    (fun l => !(settledHas S l)) (fun l => !(settledHas (S ++ [e]) l)) ?_
    (List.mem_dedup.mpr hlab) (by simp [hus]) ?_
  · intro x hx
    simp only [Bool.not_eq_true'] at hx ⊢
    rw [settledHas_append] at hx
    exact Bool.or_eq_false_iff.mp hx |>.1
  · simp [settledHas_append, settledHas]

theorem loop_empty {g : Graph} (hcl : GClosed g) :
    ∀ fuel : Nat, ∀ S : List Entry, ucount g S < fuel →
      candidatesOf g (dijkstraLoop g fuel S) = [] := by
  intro fuel
  induction fuel with
  | zero => intro S h; omega
  | succ n ih =>
    intro S h
    rw [dijkstraLoop]
    cases he : firstMinBy Entry.dist (candidatesOf g S) with
    | none => exact firstMinBy_eq_none_iff.mp he
    | some e =>
      obtain ⟨en, _, hcf⟩ := mem_candidatesOf_iff.mp (firstMinBy_mem he)
      obtain ⟨v, hv, hvs, rfl⟩ := mem_candsFor_iff.mp hcf
      have hlab : v ∈ g.labels := adj_right_mem hcl (mem_neighbors_iff.mp hv)
      have := ucount_step (S := S)
        (e := ⟨v, en.dist + g.weight en.node v, en.path ++ [v]⟩) hlab hvs
      exact ih _ (by omega)

theorem run_base {g : Graph} {src : String} (hcl : GClosed g)
    (hsrc : src ∈ g.labels) : DBase g src (dijkstraRun g src) :=
  loop_base hcl _ _ (initial_base hsrc)

theorem run_opt {g : Graph} {src : String} (hcl : GClosed g)
    (hnn : ∀ e ∈ g.edges, 0 ≤ e.2.2) (hsrc : src ∈ g.labels) :
    DOpt g src (dijkstraRun g src) :=
  loop_opt hcl hnn _ _ (initial_base hsrc) (initial_opt hnn)

theorem run_empty {g : Graph} {src : String} (hcl : GClosed g)
    (hsrc : src ∈ g.labels) : candidatesOf g (dijkstraRun g src) = [] := by
  apply loop_empty hcl
  unfold ucount
  have h1 : (g.labels.dedup.filter
      (fun l => !(settledHas [(⟨src, 0, [src]⟩ : Entry)] l))).length <
      g.labels.dedup.length := by
    have := filter_length_lt (l := g.labels.dedup) (List.nodup_dedup _)
      (fun _ => true) (fun l => !(settledHas [(⟨src, 0, [src]⟩ : Entry)] l))
      (by intro x _; rfl) (List.mem_dedup.mpr hsrc) rfl (by simp [settledHas])
    simpa using this
  exact lt_of_lt_of_le h1 (List.Sublist.length_le (List.dedup_sublist _))

/-! ### Correctness of `dijkstra_path` -/

theorem dijkstra_path_sound {g : Graph} {src tgt : String} {p : List String}
    (hcl : GClosed g) (h : dijkstra_path g src tgt = .ok p) :
    p.head? = some src ∧ p.getLast? = some tgt ∧ chainAdjB g p = true ∧
      p.Nodup ∧ (∀ x ∈ p, x ∈ g.labels) := by
  unfold dijkstra_path at h
  by_cases hsrc : g.hasNode src = true
  · rw [if_pos hsrc] at h
    have hsl : src ∈ g.labels := hasNode_iff.mp hsrc
    by_cases hts : (tgt == src) = true
    · rw [if_pos hts] at h
      have : p = [tgt] := by
        simpa using (Except.ok.injEq _ _ ▸ h).symm
      subst this
      have hteq : tgt = src := beq_iff_eq.mp hts
      subst hteq
      exact ⟨rfl, rfl, rfl, List.nodup_singleton _, by simpa using hsl⟩
    · rw [if_neg hts] at h
      cases hf : (dijkstraRun g src).find? (fun en => en.node == tgt) with
      | none => rw [hf] at h; exact absurd h (by simp)
      | some en =>
        rw [hf] at h
        have hpe : p = en.path := by simpa using (Except.ok.injEq _ _ ▸ h).symm
        subst hpe
        have hen : en ∈ dijkstraRun g src := List.mem_of_find?_eq_some hf
        have hsome := List.find?_some hf
        have hnt : en.node = tgt := beq_iff_eq.mp hsome
        have hb := run_base hcl hsl
        refine ⟨hb.head_eq en hen, hnt ▸ hb.last_eq en hen, hb.chain en hen,
          hb.pathNodup en hen, ?_⟩
        intro x hx
        have := hb.settledAll en hen x hx
        obtain ⟨enx, henx, hnx⟩ := settledHas_iff.mp this
        exact hnx ▸ hb.mem_labels enx henx
  · rw [if_neg hsrc] at h
    exact absurd h (by simp)

theorem dijkstra_path_opt {g : Graph} {src tgt : String} {p : List String}
    (hcl : GClosed g) (hnn : ∀ e ∈ g.edges, 0 ≤ e.2.2)
    (h : dijkstra_path g src tgt = .ok p) :
    ∀ q : List String, q.head? = some src → q.getLast? = some tgt →
      chainAdjB g q = true → walkWeight g p ≤ walkWeight g q := by
  intro q hh hl hc
  unfold dijkstra_path at h
  by_cases hsrc : g.hasNode src = true
  · rw [if_pos hsrc] at h
    have hsl : src ∈ g.labels := hasNode_iff.mp hsrc
    by_cases hts : (tgt == src) = true
    · rw [if_pos hts] at h
      have : p = [tgt] := by simpa using (Except.ok.injEq _ _ ▸ h).symm
      subst this
      have : walkWeight g [tgt] = 0 := rfl
      rw [this]
      exact walkWeight_nonneg hnn q
    · rw [if_neg hts] at h
      cases hf : (dijkstraRun g src).find? (fun en => en.node == tgt) with
      | none => rw [hf] at h; exact absurd h (by simp)
      | some en =>
        rw [hf] at h
        have hpe : p = en.path := by simpa using (Except.ok.injEq _ _ ▸ h).symm
        subst hpe
        have hen : en ∈ dijkstraRun g src := List.mem_of_find?_eq_some hf
        have hsome := List.find?_some hf
        have hnt : en.node = tgt := beq_iff_eq.mp hsome
        have hb := run_base hcl hsl
        have ho := run_opt hcl hnn hsl
        rw [hb.wt en hen]
        exact ho en hen q hh (hnt ▸ hl) hc
  · rw [if_neg hsrc] at h
    exact absurd h (by simp)

theorem dijkstra_path_complete {g : Graph} {src tgt : String} {q : List String}
    (hcl : GClosed g) (hnn : ∀ e ∈ g.edges, 0 ≤ e.2.2)
    (hw : isWalk g src tgt q) : ∃ p, dijkstra_path g src tgt = .ok p := by
  obtain ⟨hh, hl, hmem, hc⟩ := hw
  have hsl : src ∈ g.labels := by
    apply hmem
    cases q with
    | nil => simp at hh
    | cons a t =>
      simp only [List.head?_cons, Option.some.injEq] at hh
      subst hh
      exact List.mem_cons_self _ _
  have hsrc : g.hasNode src = true := hasNode_iff.mpr hsl
  unfold dijkstra_path
  rw [if_pos hsrc]
  by_cases hts : (tgt == src) = true
  · rw [if_pos hts]
    exact ⟨[tgt], rfl⟩
  · rw [if_neg hts]
    cases hf : (dijkstraRun g src).find? (fun en => en.node == tgt) with
    | some en => exact ⟨en.path, rfl⟩
    | none =>
      exfalso
      have hus : settledHas (dijkstraRun g src) tgt = false := by
        cases hs : settledHas (dijkstraRun g src) tgt
        · rfl
        · obtain ⟨en, hen, hnt⟩ := settledHas_iff.mp hs
          have := List.find?_eq_none.mp hf en hen
          simp [hnt] at this
      have hb := run_base hcl hsl
      have ho := run_opt hcl hnn hsl
      obtain ⟨c, hcmem, _⟩ :=
        crossing_from hb ho hnn q ⟨src, 0, [src]⟩ tgt hb.src_mem hh hl hc hus
      rw [run_empty hcl hsl] at hcmem
      exact absurd hcmem (List.not_mem_nil c)

theorem dijkstra_path_nnf_iff {g : Graph} {src tgt : String} :
    dijkstra_path g src tgt = .error .nodeNotFound ↔ g.hasNode src = false := by
  unfold dijkstra_path
  by_cases hsrc : g.hasNode src = true
  · rw [if_pos hsrc, hsrc]
    by_cases hts : (tgt == src) = true
    · rw [if_pos hts]
      simp
    · rw [if_neg hts]
      cases hf : (dijkstraRun g src).find? (fun en => en.node == tgt) <;> simp
  · rw [if_neg hsrc]
    simp only [Bool.not_eq_true] at hsrc
    rw [hsrc]
    simp

theorem dijkstra_path_self {g : Graph} {l : String} (h : g.hasNode l = true) :
    dijkstra_path g l l = .ok [l] := by
  unfold dijkstra_path
  rw [if_pos h, if_pos (by simp)]

/-! ### The routing engine `shortest_path_via_cxx` (app.py:166-188) -/

/-- Decimal rendering of `f"{d:.1f}"`, modelled on exact rationals with
round-half-up.  No verified property depends on the digit string. -/
def fmt1 (q : ℚ) : String :=
  let r := q * 10 + 1 / 2
  let n : Int := r.num.fdiv r.den
  (if n < 0 then "-" else "") ++ toString (n.natAbs / 10) ++ "." ++ toString (n.natAbs % 10)

/-- One rendered step `f"{a} → {b} ({d:.1f} m)"` (app.py:187). -/
def segText (a b : String) (d : ℚ) : String :=
  a ++ " → " ++ b ++ " (" ++ fmt1 d ++ " m)"

/-- The step list built by the loop at app.py:182-187: one pair per
consecutive node pair, the distance read from the original graph `g`
(`d = g[a][b]["weight"]`). -/
def stepsOf (g : Graph) (nodes : List String) : List (String × ℚ) :=
  (nodes.zip nodes.tail).map
    (fun ab => (segText ab.1 ab.2 (g.weight ab.1 ab.2), g.weight ab.1 ab.2))

/-- The running total `total += d` accumulated by the same loop. -/
def totalOf (g : Graph) (nodes : List String) : ℚ :=
  ((nodes.zip nodes.tail).map (fun ab => g.weight ab.1 ab.2)).foldl (· + ·) 0

/-- The exception that can escape `shortest_path_via_cxx`: `nx.NodeNotFound`
is not a subclass of `nx.NetworkXNoPath`, so the handler at app.py:179 does
not catch it. -/
inductive PyErr where
  | nodeNotFound
deriving Repr, DecidableEq

/-- Membership in `allowed = {start, end} ∪ {n ∈ g.nodes | is_cxx n}`
(app.py:173-174). -/
def allowedKeep (s t n : String) : Bool := n == s || n == t || is_cxx n

/-- `H = g.subgraph(allowed).copy()` (app.py:175). -/
def routeSubgraph (g : Graph) (s t : String) : Graph := g.subgraph (allowedKeep s t)

/-- The triple returned by `shortest_path_via_cxx`: optional node path,
step list, total distance. -/
abbrev RouteResult := Option (List String) × List (String × ℚ) × ℚ

/-- Model of `shortest_path_via_cxx(start, end, graph)` (app.py:166-188).
`.ok (none, [], 0)` is the caught-`NetworkXNoPath` return of app.py:180;
`.error .nodeNotFound` is the uncaught exception. -/
def shortest_path_via_cxx (g : Graph) (s t : String) : Except PyErr RouteResult :=
  match dijkstra_path (routeSubgraph g s t) s t with
  | .error .noPath => .ok (none, [], 0)
  | .error .nodeNotFound => .error .nodeNotFound
  | .ok nodes => .ok (some nodes, stepsOf g nodes, totalOf g nodes)

/-! ### Helper lemmas about the routing layer -/

theorem subgraph_hasNode (g : Graph) (keep : String → Bool) (l : String) :
    (g.subgraph keep).hasNode l = (g.hasNode l && keep l) := by
  by_cases h : l ∈ (g.subgraph keep).labels
  · have h2 := mem_subgraph_labels.mp h
    rw [hasNode_iff.mpr h, hasNode_iff.mpr h2.1, h2.2]
    rfl
  · have hn : (g.subgraph keep).hasNode l = false := by
      cases hh : (g.subgraph keep).hasNode l
      · rfl
      · exact absurd (hasNode_iff.mp hh) h
    rw [hn]
    by_cases hg : l ∈ g.labels
    · have : keep l = false := by
        cases hk : keep l
        · rfl
        · exact absurd (mem_subgraph_labels.mpr ⟨hg, hk⟩) h
      rw [hasNode_iff.mpr hg, this]
      rfl
    · have : g.hasNode l = false := by
        cases hh : g.hasNode l
        · rfl
        · exact absurd (hasNode_iff.mp hh) hg
      rw [this]
      rfl

theorem routeSubgraph_hasNode_start (g : Graph) (s t : String) :
    (routeSubgraph g s t).hasNode s = g.hasNode s := by
  rw [routeSubgraph, subgraph_hasNode]
  have : allowedKeep s t s = true := by simp [allowedKeep]
  rw [this, Bool.and_true]

theorem foldl_add_eq_sum : ∀ (l : List ℚ) (a : ℚ), l.foldl (· + ·) a = a + l.sum := by
  intro l
  induction l with
  | nil => intro a; simp
  | cons x t ih =>
    intro a
    rw [List.foldl_cons, ih, List.sum_cons]
    ring

theorem totalOf_eq_sum (g : Graph) (p : List String) :
    totalOf g p = ((p.zip p.tail).map (fun ab => g.weight ab.1 ab.2)).sum := by
  rw [totalOf, foldl_add_eq_sum, zero_add]

theorem walkWeight_eq_zip_sum (g : Graph) :
    ∀ p : List String,
      walkWeight g p = ((p.zip p.tail).map (fun ab => g.weight ab.1 ab.2)).sum := by
  intro p
  induction p with
  | nil => rfl
  | cons a t ih =>
    cases t with
    | nil => rfl
    | cons b r =>
      rw [walkWeight_cons, ih]
      simp [List.zip_cons_cons]

theorem walkWeight_eq_totalOf (g : Graph) (p : List String) :
    walkWeight g p = totalOf g p := by
  rw [walkWeight_eq_zip_sum, totalOf_eq_sum]

theorem stepsOf_length (g : Graph) (p : List String) :
    (stepsOf g p).length = p.length - 1 := by
  rw [stepsOf, List.length_map, List.length_zip, List.length_tail]
  omega

theorem stepsOf_map_snd (g : Graph) (p : List String) :
    (stepsOf g p).map Prod.snd = (p.zip p.tail).map (fun ab => g.weight ab.1 ab.2) := by
  rw [stepsOf, List.map_map]
  rfl

theorem zip_tail_getElem {α : Type} [Inhabited α] :
    ∀ (p : List α) (i : Nat), i + 1 < p.length → (p.zip p.tail)[i]! = (p[i]!, p[i + 1]!) := by
  intro p
  induction p with
  | nil => intro i h; simp at h
  | cons a t ih =>
    intro i h
    cases t with
    | nil => simp at h
    | cons b r =>
      cases i with
      | zero =>
        simp [List.zip_cons_cons, List.getElem!_cons_zero, List.getElem!_cons_succ]
      | succ j =>
        have hb : j + 1 < (b :: r).length := by
          simpa [List.length_cons] using Nat.lt_of_succ_lt_succ h
        have := ih j hb
        simpa [List.zip_cons_cons, List.getElem!_cons_succ] using this

theorem chainAdjB_pairs {g : Graph} :
    ∀ {p : List String}, chainAdjB g p = true →
      ∀ i : Nat, i + 1 < p.length → g.adj p[i]! p[i + 1]! = true := by
  intro p
  induction p with
  | nil => intro _ i h; simp at h
  | cons a t ih =>
    intro hc i h
    cases t with
    | nil => simp at h
    | cons b r =>
      rw [chainAdjB_cons, Bool.and_eq_true] at hc
      cases i with
      | zero => simpa [List.getElem!_cons_zero, List.getElem!_cons_succ] using hc.1
      | succ j =>
        have hb : j + 1 < (b :: r).length := by
          simpa [List.length_cons] using Nat.lt_of_succ_lt_succ h
        have := ih hc.2 j hb
        simpa [List.getElem!_cons_succ] using this

theorem stepsOf_getElem (g : Graph) (p : List String) (i : Nat) (h : i + 1 < p.length) :
    (stepsOf g p)[i]! =
      (segText p[i]! p[i + 1]! (g.weight p[i]! p[i + 1]!), g.weight p[i]! p[i + 1]!) := by
  have hlen : i < (p.zip p.tail).length := by
    rw [List.length_zip, List.length_tail]
    omega
  have hmap : (stepsOf g p)[i]! =
      (fun ab => (segText ab.1 ab.2 (g.weight ab.1 ab.2), g.weight ab.1 ab.2))
        ((p.zip p.tail)[i]!) := by
    rw [stepsOf]
    rw [getElem!_pos ((p.zip p.tail).map _) i (by simpa using hlen),
      getElem!_pos (p.zip p.tail) i hlen, List.getElem_map]
  rw [hmap, zip_tail_getElem p i h]

/-- Decomposition of a successful route call. -/
theorem route_ok_elim {g : Graph} {s t : String} {nodes : List String}
    {segs : List (String × ℚ)} {tot : ℚ}
    (h : shortest_path_via_cxx g s t = .ok (some nodes, segs, tot)) :
    dijkstra_path (routeSubgraph g s t) s t = .ok nodes ∧
      segs = stepsOf g nodes ∧ tot = totalOf g nodes := by
  unfold shortest_path_via_cxx at h
  cases hd : dijkstra_path (routeSubgraph g s t) s t with
  | error err =>
    cases err <;> rw [hd] at h <;> simp at h
  | ok p =>
    rw [hd] at h
    simp only [Except.ok.injEq, Prod.mk.injEq, Option.some.injEq] at h
    obtain ⟨h1, h2, h3⟩ := h
    subst h1
    exact ⟨rfl, h2.symm, h3.symm⟩

/-- Decomposition of the no-path return. -/
theorem route_noPath_elim {g : Graph} {s t : String} {segs : List (String × ℚ)} {tot : ℚ}
    (h : shortest_path_via_cxx g s t = .ok (none, segs, tot)) :
    segs = [] ∧ tot = 0 := by
  unfold shortest_path_via_cxx at h
  cases hd : dijkstra_path (routeSubgraph g s t) s t with
  | error err =>
    cases err <;> rw [hd] at h <;> simp at h
    exact ⟨h.1, h.2.symm⟩
  | ok p =>
    rw [hd] at h
    simp at h

/-- A route over the trivial `start == end` query (app.py never rejects this
inside the planner; `nx.dijkstra_path` returns `[start]`). -/
theorem route_self {g : Graph} {l : String} (h : g.hasNode l = true) :
    shortest_path_via_cxx g l l = .ok (some [l], [], 0) := by
  have hH : (routeSubgraph g l l).hasNode l = true := by
    rw [routeSubgraph_hasNode_start, h]
  unfold shortest_path_via_cxx
  rw [dijkstra_path_self hH]
  rfl

/-! ### The "use my location" anchor flow (app.py:306-343)

The GPS branch of the `index` view finds the corridor node closest to the
submitted coordinates, adds the synthetic node `_user_location_` and an edge
to that corridor node *directly to the module-global graph `G`* (which is the
very object stored in `_GRAPH_CACHE`), routes from the synthetic node, and
rewrites the first segment.  The haversine distance (app.py:80-88) uses
transcendental functions, so it enters the model as an oracle parameter
`hav`; every property proved below holds for all oracles. -/

/-- The synthetic anchor label (app.py:323). -/
def temp_node : String := "_user_location_"

/-- Attribute lookup `G.nodes[n]["lat"]` (every call site looks up nodes that
are present, so the default is never observed). -/
def latOf (g : Graph) (n : String) : ℚ :=
  ((g.nodes.find? (fun p => p.1 == n)).map (fun p => p.2.lat)).getD 0

/-- Attribute lookup `G.nodes[n]["lon"]`. -/
def lonOf (g : Graph) (n : String) : ℚ :=
  ((g.nodes.find? (fun p => p.1 == n)).map (fun p => p.2.lon)).getD 0

/-- The nearest-corridor scan (app.py:311-320): Python's `min` with a key
returns the first minimum; `none` models the `not cxx_nodes` early exit. -/
def closestCxx (hav : ℚ → ℚ → ℚ → ℚ → ℚ) (g : Graph) (ulat ulon : ℚ) : Option String :=
  firstMinBy (fun n => hav ulat ulon (latOf g n) (lonOf g n)) (g.labels.filter is_cxx)

/-- The state of `G` after `G.add_node(temp_node, ...)` and
`G.add_edge(temp_node, closest, weight=dist)` (app.py:325-326). -/
def anchorGraph (hav : ℚ → ℚ → ℚ → ℚ → ℚ) (g : Graph) (ulat ulon : ℚ)
    (closest : String) : Graph :=
  (g.addNode temp_node ⟨ulat, ulon, "ground"⟩).addEdge temp_node closest
    (hav ulat ulon (latOf g closest) (lonOf g closest))

/-- Outcomes of the GPS branch: the three `flash`-and-redirect exits and the
rendered result page. -/
inductive AnchorOutcome where
  | noCxxNodes
  | noPath
  | locationError
  | routed (path : List String) (segments : List (String × ℚ)) (total : ℚ)
deriving Repr, DecidableEq

/-- Model of the GPS branch of `index` (app.py:306-343), returning the
outcome together with the post-request state of the module-global graph `G`
(the object cached in `_GRAPH_CACHE`).  The `.locationError` case is the
`except Exception` handler at app.py:344; the first-segment rewrite is
app.py:334-337. -/
def anchor_route (hav : ℚ → ℚ → ℚ → ℚ → ℚ) (g : Graph) (ulat ulon : ℚ)
    (tgt : String) : AnchorOutcome × Graph :=
  match closestCxx hav g ulat ulon with
  | none => (.noCxxNodes, g)
  | some closest =>
    match shortest_path_via_cxx (anchorGraph hav g ulat ulon closest) temp_node tgt with
    | .error _ => (.locationError, anchorGraph hav g ulat ulon closest)
    | .ok (none, _, _) => (.noPath, anchorGraph hav g ulat ulon closest)
    | .ok (some nodes, segs, total) =>
      if (!segs.isEmpty) && (!nodes.isEmpty) && (nodes.head? == some temp_node) &&
          decide (1 < nodes.length) then
        match (anchorGraph hav g ulat ulon closest).edgeWeight? temp_node nodes[1]! with
        | some fed =>
          (.routed nodes
            (segs.set 0 ("Your location → " ++ nodes[1]! ++ " (" ++ fmt1 fed ++ " m)", fed))
            total, anchorGraph hav g ulat ulon closest)
        | none => (.locationError, anchorGraph hav g ulat ulon closest)
      else (.routed nodes segs total, anchorGraph hav g ulat ulon closest)

/-! ### Helper lemmas about the anchor flow -/

theorem addNode_edges (g : Graph) (l : String) (a : NodeAttrs) :
    (g.addNode l a).edges = g.edges := by
  unfold Graph.addNode
  split <;> rfl

theorem addNode_hasNode (g : Graph) (l : String) (a : NodeAttrs) :
    (g.addNode l a).hasNode l = true := by
  unfold Graph.addNode
  by_cases h : g.hasNode l = true
  · rw [if_pos h]
    rw [hasNode_iff] at h ⊢
    simp only [Graph.labels, List.mem_map] at h ⊢
    obtain ⟨p, hp, hpl⟩ := h
    exact ⟨(l, a), ⟨p, hp, by simp [hpl]⟩, rfl⟩
  · rw [if_neg h]
    rw [hasNode_iff]
    simp [Graph.labels]

theorem find?_append_of_none {α : Type} {l1 l2 : List α} {p : α → Bool}
    (h : ∀ x ∈ l1, p x = false) : (l1 ++ l2).find? p = l2.find? p := by
  induction l1 with
  | nil => rfl
  | cons a t ih =>
    simp only [List.cons_append, List.find?]
    rw [h a (List.mem_cons_self _ _)]
    exact ih (fun x hx => h x (List.mem_cons_of_mem _ hx))

/-- With a fresh anchor label, the anchor graph's edges are exactly the old
edges plus the synthetic edge. -/
theorem anchorGraph_edges {hav : ℚ → ℚ → ℚ → ℚ → ℚ} {g : Graph} {ulat ulon : ℚ}
    {closest : String}
    (hfresh : ∀ e ∈ g.edges, e.1 ≠ temp_node ∧ e.2.1 ≠ temp_node) :
    (anchorGraph hav g ulat ulon closest).edges =
      g.edges ++ [(temp_node, closest, hav ulat ulon (latOf g closest) (lonOf g closest))] := by
  unfold anchorGraph
  have hmatch : ∀ e ∈ g.edges, edgeMatches temp_node closest e = false := by
    intro e he
    cases hm : edgeMatches temp_node closest e
    · rfl
    · exfalso
      rcases edgeMatches_iff.mp hm with ⟨h1, _⟩ | ⟨_, h2⟩
      · exact (hfresh e he).1 h1
      · exact (hfresh e he).2 h2
  unfold Graph.addEdge
  rw [addNode_edges]
  have hany : g.edges.any (edgeMatches temp_node closest) = false := by
    rw [Bool.eq_false_iff]
    intro hc
    rw [List.any_eq_true] at hc
    obtain ⟨e, he, hm⟩ := hc
    rw [hmatch e he] at hm
    exact Bool.false_ne_true hm
  rw [if_neg (by simp [hany])]

/-- With a fresh anchor label, the only neighbour of the synthetic node in the
anchor graph is the chosen corridor node, and the synthetic edge carries the
computed distance. -/
theorem anchorGraph_adj_temp {hav : ℚ → ℚ → ℚ → ℚ → ℚ} {g : Graph} {ulat ulon : ℚ}
    {closest v : String}
    (hfresh : ∀ e ∈ g.edges, e.1 ≠ temp_node ∧ e.2.1 ≠ temp_node)
    (hct : closest ≠ temp_node)
    (hadj : (anchorGraph hav g ulat ulon closest).adj temp_node v = true) :
    v = closest ∧ (anchorGraph hav g ulat ulon closest).edgeWeight? temp_node v =
      some (hav ulat ulon (latOf g closest) (lonOf g closest)) := by
  have hedges := @anchorGraph_edges hav g ulat ulon closest hfresh
  have hveq : v = closest := by
    rw [adj_iff, hedges] at hadj
    obtain ⟨e, he, hm⟩ := hadj
    rcases List.mem_append.mp he with h1 | h1
    · exfalso
      rcases edgeMatches_iff.mp hm with ⟨hh1, _⟩ | ⟨_, hh2⟩
      · exact (hfresh e h1).1 hh1
      · exact (hfresh e h1).2 hh2
    · rw [List.mem_singleton] at h1
      subst h1
      rcases edgeMatches_iff.mp hm with ⟨_, hh2⟩ | ⟨hh1, hh2⟩
      · exact hh2.symm
      · exact absurd hh2 hct
  subst hveq
  refine ⟨rfl, ?_⟩
  unfold Graph.edgeWeight?
  rw [hedges]
  have hmatch : ∀ e ∈ g.edges, edgeMatches temp_node v e = false := by
    intro e he
    cases hm : edgeMatches temp_node v e
    · rfl
    · exfalso
      rcases edgeMatches_iff.mp hm with ⟨h1, _⟩ | ⟨_, h2⟩
      · exact (hfresh e he).1 h1
      · exact (hfresh e he).2 h2
  rw [find?_append_of_none hmatch]
  simp [List.find?, edgeMatches]

theorem head?_getElemBang {p : List String} {s : String} (h : p.head? = some s) :
    p[0]! = s := by
  cases p with
  | nil => simp at h
  | cons a t =>
    simp only [List.head?_cons, Option.some.injEq] at h
    rw [List.getElem!_cons_zero]
    exact h

theorem set_zero_head? {α : Type} {l : List α} (a : α) (h : l ≠ []) :
    (l.set 0 a).head? = some a := by
  cases l with
  | nil => exact absurd rfl h
  | cons b t => rfl

/-! ### Concrete example graphs -/

/-- The spec §8 scenario graph: `A - c01 - B` with both edges of 11.1 m. -/
def gScen : Graph :=
  ⟨[("A", ⟨0, 0, "ground"⟩), ("c01", ⟨0, 1 / 10000, "ground"⟩),
    ("B", ⟨0, 2 / 10000, "ground"⟩)],
   [("A", "c01", 111 / 10), ("c01", "B", 111 / 10)]⟩

/-- Two non-corridor nodes joined by a direct edge, no corridor nodes. -/
def gAB : Graph :=
  ⟨[("A", ⟨0, 0, "ground"⟩), ("B", ⟨0, 1, "ground"⟩)], [("A", "B", 5)]⟩

/-- A graph containing only the node `B`. -/
def gOnlyB : Graph := ⟨[("B", ⟨0, 1, "ground"⟩)], []⟩

/-- A corridor node next to a destination, for exercising the anchor flow. -/
def gDemo : Graph :=
  ⟨[("c01", ⟨0, 0, "ground"⟩), ("B", ⟨0, 1, "ground"⟩)], [("c01", "B", 5)]⟩

/-- A constant stand-in for the haversine oracle. -/
def havConst : ℚ → ℚ → ℚ → ℚ → ℚ := fun _ _ _ _ => 10

/-- The general two-node direct-edge scenario. -/
def twoNodeGraph (a b : String) (w : ℚ) : Graph :=
  ⟨[(a, ⟨0, 0, "ground"⟩), (b, ⟨0, 1, "ground"⟩)], [(a, b, w)]⟩

/-! ### C8 -/

/-- C8: corridor classification is an anchored exact full match of `c`
followed by 2-3 digits — `is_cxx` agrees with the spec's `^c\d{2,3}$`
characterisation on every label, and the six sample labels classify as the
spec requires. -/
theorem is_cxx_matches_spec :
    (∀ s : String, is_cxx s = true ↔ matchesCxxSpec s) ∧
    is_cxx "c1" = false ∧ is_cxx "c1234" = false ∧ is_cxx "cc12" = false ∧
    is_cxx "C01" = false ∧ is_cxx "c01" = true ∧ is_cxx "c007" = true := by
  refine ⟨?_, by decide, by decide, by decide, by decide, by decide, by decide⟩
  intro s
  unfold is_cxx matchesCxxSpec
  cases hd : s.data with
  | nil => simp
  | cons c ds =>
    simp only [List.all_eq_true, Bool.and_eq_true, Bool.or_eq_true, beq_iff_eq]
    constructor
    · rintro ⟨⟨hc, hall⟩, hlen⟩
      subst hc
      exact ⟨ds, rfl, hall, hlen⟩
    · rintro ⟨ds2, heq, hall, hlen⟩
      injection heq with h1 h2
      subst h1
      subst h2
      exact ⟨⟨rfl, hall⟩, hlen⟩

/-- C8 witness: the iff applied at the concrete label `c01`. -/
theorem is_cxx_matches_spec_witness : matchesCxxSpec "c01" :=
  (is_cxx_matches_spec.1 "c01").mp (by decide)

/-! ### C9 -/

/-- C9: for a label present in the graph, calling the planner with
`start == end` does not crash and returns the trivial result: the one-node
path, an empty segment list, and total 0. -/
theorem route_self_trivial (g : Graph) (l : String) (h : g.hasNode l = true) :
    shortest_path_via_cxx g l l = .ok (some [l], [], 0) := route_self h

/-- C9 witness at the scenario graph. -/
theorem route_self_trivial_witness :
    shortest_path_via_cxx gScen "A" "A" = .ok (some ["A"], [], 0) :=
  route_self_trivial gScen "A" (by decide)

/-! ### C10 -/

/-- C10: the no-path outcome is exactly the triple (no path marker, empty
segment list, total 0), and a successful `start == end` query returns the
same empty segment list and total 0, so only the path component
distinguishes the two outcomes. -/
theorem noPath_triple_matches_trivial :
    (∀ (g : Graph) (s t : String) (segs : List (String × ℚ)) (tot : ℚ),
        shortest_path_via_cxx g s t = .ok (none, segs, tot) → segs = [] ∧ tot = 0) ∧
    (∀ (g : Graph) (l : String), g.hasNode l = true →
        ∃ p, shortest_path_via_cxx g l l = .ok (some p, [], 0)) := by
  constructor
  · intro g s t segs tot h
    exact route_noPath_elim h
  · intro g l h
    exact ⟨[l], route_self h⟩

/-- C10 witness: the trivial-success half applied at the scenario graph. -/
theorem noPath_triple_matches_trivial_witness :
    ∃ p, shortest_path_via_cxx gScen "A" "A" = .ok (some p, [], 0) :=
  noPath_triple_matches_trivial.2 gScen "A" (by decide)

/-! ### C3 (corrected) -/

/-- C3 counterexample: with the start label absent from the graph, the route
call does not return the no-path value — the `NodeNotFound` exception escapes
`shortest_path_via_cxx` (its handler only catches `NetworkXNoPath`). -/
theorem route_missing_start_raises :
    shortest_path_via_cxx gOnlyB "A" "B" = .error .nodeNotFound ∧
    shortest_path_via_cxx gOnlyB "A" "B" ≠ .ok (none, [], 0) := by
  constructor
  · rfl
  · intro h
    have h1 : shortest_path_via_cxx gOnlyB "A" "B" = Except.error PyErr.nodeNotFound := rfl
    rw [h1] at h
    exact Except.noConfusion h

theorem mem_of_getLast?_eq {p : List String} {t : String} (h : p.getLast? = some t) :
    t ∈ p := by
  induction p with
  | nil => simp at h
  | cons a r ih =>
    cases r with
    | nil =>
      simp only [List.getLast?_singleton, Option.some.injEq] at h
      rw [← h]
      exact List.mem_cons_self _ _
    | cons b r2 =>
      have h2 : (b :: r2).getLast? = some t := by
        simpa [List.getLast?_cons_cons] using h
      exact List.mem_cons_of_mem _ (ih h2)

/-- C3 (amended): when the start label is present, the route operation always
terminates with a value; in particular an absent end label, or the absence of
any corridor-constrained walk, yields exactly the no-path value
`(none, [], 0)`.  But when the start label is absent, the uncaught
`NodeNotFound` exception escapes instead of the no-path value. -/
theorem route_totality_amended (g : Graph) (s t : String) :
    (g.hasNode s = false → shortest_path_via_cxx g s t = .error .nodeNotFound) ∧
    (g.hasNode s = true → g.hasNode t = false →
      shortest_path_via_cxx g s t = .ok (none, [], 0)) ∧
    (g.hasNode s = true → (¬ ∃ q, isWalk (routeSubgraph g s t) s t q) →
      shortest_path_via_cxx g s t = .ok (none, [], 0)) ∧
    (g.hasNode s = true → ∃ r : RouteResult, shortest_path_via_cxx g s t = .ok r) := by
  have hcl : GClosed (routeSubgraph g s t) := subgraph_gclosed g (allowedKeep s t)
  have hnopath : g.hasNode s = true →
      (¬ ∃ q, isWalk (routeSubgraph g s t) s t q) →
      shortest_path_via_cxx g s t = .ok (none, [], 0) := by
    intro hs hno
    unfold shortest_path_via_cxx
    cases hd : dijkstra_path (routeSubgraph g s t) s t with
    | ok p =>
      exfalso
      obtain ⟨hh, hl, hc, _, hmem⟩ :=
        dijkstra_path_sound (g := routeSubgraph g s t) hcl hd
      exact hno ⟨p, hh, hl, hmem, hc⟩
    | error err =>
      cases err with
      | noPath => rfl
      | nodeNotFound =>
        exfalso
        have hh := dijkstra_path_nnf_iff.mp hd
        rw [routeSubgraph_hasNode_start, hs] at hh
        exact Bool.true_eq_false.mp hh
  refine ⟨?_, ?_, hnopath, ?_⟩
  · intro h
    unfold shortest_path_via_cxx
    have hnd : dijkstra_path (routeSubgraph g s t) s t = .error .nodeNotFound := by
      rw [dijkstra_path_nnf_iff, routeSubgraph_hasNode_start, h]
    rw [hnd]
  · intro hs ht
    apply hnopath hs
    rintro ⟨q, _, hql, hqmem, _⟩
    have htm : t ∈ (routeSubgraph g s t).labels := hqmem t (mem_of_getLast?_eq hql)
    have htg : g.hasNode t = true := hasNode_iff.mpr (mem_subgraph_labels.mp htm).1
    rw [htg] at ht
    exact Bool.true_eq_false.mp ht
  · intro h
    unfold shortest_path_via_cxx
    cases hd : dijkstra_path (routeSubgraph g s t) s t with
    | ok p => exact ⟨(some p, stepsOf g p, totalOf g p), rfl⟩
    | error err =>
      cases err with
      | noPath => exact ⟨(none, [], 0), rfl⟩
      | nodeNotFound =>
        exfalso
        have hh := dijkstra_path_nnf_iff.mp hd
        rw [routeSubgraph_hasNode_start, h] at hh
        exact Bool.true_eq_false.mp hh

/-- C3 witness: the absent-end clause at a concrete graph (the end label `Z`
is not a node of `gAB`, and the route returns exactly the no-path triple),
and the present-start clause at the direct-edge query. -/
theorem route_totality_amended_witness :
    shortest_path_via_cxx gAB "A" "Z" = .ok (none, [], 0) ∧
    (∃ r : RouteResult, shortest_path_via_cxx gAB "A" "B" = .ok r) :=
  ⟨(route_totality_amended gAB "A" "Z").2.1 (by decide) (by decide),
   (route_totality_amended gAB "A" "B").2.2.2 (by decide)⟩

/-! ### C2 (corrected) -/

/-- C2 counterexample: on the two-node direct-edge graph the route does NOT
return the no-path outcome — it uses the direct edge, because both endpoints
belong to the allowed set and the induced subgraph keeps edges between
allowed nodes. -/
theorem route_direct_edge_counterexample :
    shortest_path_via_cxx gAB "A" "B" =
      .ok (some ["A", "B"], [(segText "A" "B" 5, 5)], 5) ∧
    shortest_path_via_cxx gAB "A" "B" ≠ .ok (none, [], 0) := by
  have h1 : shortest_path_via_cxx gAB "A" "B" =
      .ok (some ["A", "B"], [(segText "A" "B" 5, 5)], 5) := by
    repeat
      simp [shortest_path_via_cxx, dijkstra_path, dijkstraRun, dijkstraLoop,
        candidatesOf, candsFor, firstMinBy, settledHas, Graph.neighbors,
        Graph.weight, Graph.edgeWeight?, edgeMatches, routeSubgraph, Graph.subgraph,
        allowedKeep, Graph.hasNode, Graph.labels, gAB, stepsOf, totalOf, is_cxx]
  refine ⟨h1, ?_⟩
  rw [h1]
  intro h
  simp at h

/-- C2 (amended): for a graph whose only nodes are two distinct non-corridor
nodes joined by a direct edge of non-negative weight, `route` succeeds with
the direct path `[a, b]`, one segment carrying the edge weight, and total
equal to that weight — the direct edge is used, not excluded. -/
theorem route_direct_edge_used (a b : String) (w : ℚ) (hne : a ≠ b) (hw : 0 ≤ w)
    (hca : is_cxx a = false) (hcb : is_cxx b = false) :
    shortest_path_via_cxx (twoNodeGraph a b w) a b =
      .ok (some [a, b], [(segText a b w, w)], w) := by
  have hlabels : (twoNodeGraph a b w).labels = [a, b] := rfl
  have hnn : ∀ e ∈ (twoNodeGraph a b w).edges, 0 ≤ e.2.2 := by
    intro e he
    simp only [twoNodeGraph, List.mem_singleton] at he
    subst he
    exact hw
  have hma : a ∈ (routeSubgraph (twoNodeGraph a b w) a b).labels :=
    mem_subgraph_labels.mpr ⟨by rw [hlabels]; exact List.mem_cons_self _ _,
      by simp [allowedKeep]⟩
  have hmb : b ∈ (routeSubgraph (twoNodeGraph a b w) a b).labels :=
    mem_subgraph_labels.mpr ⟨by rw [hlabels]; simp, by simp [allowedKeep]⟩
  have hedge : ((a, b, w) : String × String × ℚ) ∈
      (routeSubgraph (twoNodeGraph a b w) a b).edges := by
    simp only [routeSubgraph, Graph.subgraph, List.mem_filter, Bool.and_eq_true,
      decide_eq_true_eq]
    refine ⟨by simp [twoNodeGraph], ?_, ?_⟩
    · exact hma
    · exact hmb
  have hHadj : (routeSubgraph (twoNodeGraph a b w) a b).adj a b = true :=
    adj_iff.mpr ⟨(a, b, w), hedge, by simp [edgeMatches]⟩
  have hwalk : isWalk (routeSubgraph (twoNodeGraph a b w) a b) a b [a, b] := by
    refine ⟨rfl, rfl, ?_, ?_⟩
    · intro x hx
      rcases List.mem_cons.mp hx with rfl | hx2
      · exact hma
      · rw [List.mem_singleton] at hx2
        subst hx2
        exact hmb
    · rw [chainAdjB_cons, hHadj]
      rfl
  have hcl : GClosed (routeSubgraph (twoNodeGraph a b w) a b) :=
    subgraph_gclosed (twoNodeGraph a b w) (allowedKeep a b)
  have hnnH : ∀ e ∈ (routeSubgraph (twoNodeGraph a b w) a b).edges, 0 ≤ e.2.2 :=
    fun e he => hnn e (subgraph_edges_sub he)
  obtain ⟨p, hd⟩ :=
    dijkstra_path_complete (g := routeSubgraph (twoNodeGraph a b w) a b) hcl hnnH hwalk
  obtain ⟨hh, hl, hc, hnd, _⟩ :=
    dijkstra_path_sound (g := routeSubgraph (twoNodeGraph a b w) a b) hcl hd
  have hadj_only : ∀ u v : String, (twoNodeGraph a b w).adj u v = true →
      (u = a ∧ v = b) ∨ (u = b ∧ v = a) := by
    intro u v huv
    rw [adj_iff] at huv
    obtain ⟨e, he, hm⟩ := huv
    simp only [twoNodeGraph, List.mem_singleton] at he
    subst he
    rcases edgeMatches_iff.mp hm with ⟨h1, h2⟩ | ⟨h1, h2⟩
    · exact Or.inl ⟨h1.symm, h2.symm⟩
    · exact Or.inr ⟨h2.symm, h1.symm⟩
  have hp : p = [a, b] := by
    cases p with
    | nil => simp at hh
    | cons x rest =>
      simp only [List.head?_cons, Option.some.injEq] at hh
      cases rest with
      | nil =>
        exfalso
        simp only [List.getLast?_singleton, Option.some.injEq] at hl
        exact hne (by rw [← hh]; exact hl)
      | cons x2 r2 =>
        rw [chainAdjB_cons, Bool.and_eq_true] at hc
        have hx2 : x2 = b := by
          have hg := subgraph_adj_imp hc.1
          rcases hadj_only _ _ hg with ⟨_, h2⟩ | ⟨h1, _⟩
          · exact h2
          · exfalso
            exact hne (by rw [← hh, h1])
        subst hx2
        cases r2 with
        | nil => rw [hh]
        | cons y r3 =>
          exfalso
          rw [chainAdjB_cons, Bool.and_eq_true] at hc
          have hg := subgraph_adj_imp hc.2.1
          rcases hadj_only _ _ hg with ⟨h1, _⟩ | ⟨_, h2⟩
          · exact hne h1.symm
          · have hyx : y = x := by rw [h2, ← hh]
            rw [List.nodup_cons] at hnd
            apply hnd.1
            rw [← hyx] at hh ⊢
            exact List.mem_cons_of_mem _ (List.mem_cons_self _ _)
  subst hp
  have hwab : (twoNodeGraph a b w).weight a b = w := by
    unfold Graph.weight Graph.edgeWeight?
    simp [twoNodeGraph, List.find?, edgeMatches]
  unfold shortest_path_via_cxx
  rw [hd]
  have hsteps : stepsOf (twoNodeGraph a b w) [a, b] = [(segText a b w, w)] := by
    simp [stepsOf, List.zip_cons_cons, hwab]
  have htotal : totalOf (twoNodeGraph a b w) [a, b] = w := by
    simp [totalOf, List.zip_cons_cons, hwab]
  simp only [hsteps, htotal]

/-- C2 witness: the amended theorem instantiated at the concrete scenario. -/
theorem route_direct_edge_used_witness :
    shortest_path_via_cxx (twoNodeGraph "A" "B" 5) "A" "B" =
      .ok (some ["A", "B"], [(segText "A" "B" 5, 5)], 5) :=
  route_direct_edge_used "A" "B" 5 (by decide) (by norm_num) (by decide) (by decide)

theorem getLast?_getElemBang {p : List String} {t : String} (h : p.getLast? = some t) :
    p[p.length - 1]! = t := by
  have hne : p ≠ [] := by
    intro hnil
    rw [hnil] at h
    simp at h
  have hlen : p.length - 1 < p.length := by
    have := List.length_pos.mpr hne
    omega
  rw [getElem!_pos p _ hlen]
  rw [List.getLast?_eq_getElem?] at h
  rw [List.getElem?_eq_getElem hlen] at h
  exact Option.some.injEq _ _ ▸ h

/-- Non-negativity of the scenario graph's edge weights. -/
theorem gScen_nonneg : ∀ e ∈ gScen.edges, 0 ≤ e.2.2 := by
  intro e he
  simp only [gScen, List.mem_cons, List.mem_singleton, List.not_mem_nil, or_false] at he
  rcases he with rfl | rfl <;> norm_num

/-- Concrete evaluation of the scenario route. -/
theorem gScen_route_eval : shortest_path_via_cxx gScen "A" "B" =
    .ok (some ["A", "c01", "B"],
      [(segText "A" "c01" (111 / 10), 111 / 10), (segText "c01" "B" (111 / 10), 111 / 10)],
      111 / 5) := by
  repeat
    simp [shortest_path_via_cxx, dijkstra_path, dijkstraRun, dijkstraLoop,
      candidatesOf, candsFor, firstMinBy, settledHas, Graph.neighbors,
      Graph.weight, Graph.edgeWeight?, edgeMatches, routeSubgraph, Graph.subgraph,
      allowedKeep, Graph.hasNode, Graph.labels, gScen, stepsOf, totalOf, is_cxx]
  norm_num

/-! ### C4 -/

/-- C4: on a successful route between distinct endpoints, every node of the
returned path other than its first and last elements is a corridor node —
routing never passes through another named location. -/
theorem route_intermediates_corridor (g : Graph) (s t : String)
    (nodes : List String) (segs : List (String × ℚ)) (tot : ℚ) (hne : s ≠ t)
    (h : shortest_path_via_cxx g s t = .ok (some nodes, segs, tot)) :
    ∀ i : Nat, 0 < i → i + 1 < nodes.length → is_cxx nodes[i]! = true := by
  obtain ⟨hd, _, _⟩ := route_ok_elim h
  have hcl : GClosed (routeSubgraph g s t) := subgraph_gclosed g (allowedKeep s t)
  obtain ⟨hh, hl, _, hnd, hmem⟩ := dijkstra_path_sound (g := routeSubgraph g s t) hcl hd
  intro i hi hilen
  have hib : i < nodes.length := by omega
  have hx : nodes[i]! ∈ nodes := by
    rw [getElem!_pos nodes i hib]
    exact List.getElem_mem _
  have hallow : allowedKeep s t nodes[i]! = true :=
    (mem_subgraph_labels.mp (hmem _ hx)).2
  rw [allowedKeep, Bool.or_eq_true, Bool.or_eq_true] at hallow
  rcases hallow with (hs | ht) | hcxx
  · exfalso
    have h0 := head?_getElemBang hh
    have hsame : nodes[i]! = nodes[0]! := by
      rw [h0, beq_iff_eq.mp hs]
    rw [getElem!_pos nodes i hib, getElem!_pos nodes 0 (by omega)] at hsame
    have := (List.Nodup.getElem_inj_iff hnd).mp hsame
    omega
  · exfalso
    have hlast := getLast?_getElemBang hl
    have hsame : nodes[i]! = nodes[nodes.length - 1]! := by
      rw [hlast, beq_iff_eq.mp ht]
    rw [getElem!_pos nodes i hib, getElem!_pos nodes _ (by omega)] at hsame
    have := (List.Nodup.getElem_inj_iff hnd).mp hsame
    omega
  · exact hcxx

/-- C4 witness: the middle node of the scenario route is a corridor node. -/
theorem route_intermediates_corridor_witness : is_cxx (["A", "c01", "B"][1]!) = true :=
  route_intermediates_corridor gScen "A" "B" ["A", "c01", "B"]
    [(segText "A" "c01" (111 / 10), 111 / 10), (segText "c01" "B" (111 / 10), 111 / 10)]
    (111 / 5) (by decide) gScen_route_eval 1 (by omega) (by decide)

/-! ### C5 -/

/-- C5: with non-negative edge weights, the total of a successful route is
minimal — no walk between the same endpoints inside the corridor-restricted
subgraph has a strictly smaller sum of edge weights. -/
theorem route_total_minimal (g : Graph) (s t : String) (nodes : List String)
    (segs : List (String × ℚ)) (tot : ℚ)
    (hnn : ∀ e ∈ g.edges, 0 ≤ e.2.2)
    (h : shortest_path_via_cxx g s t = .ok (some nodes, segs, tot)) :
    ∀ q : List String, isWalk (routeSubgraph g s t) s t q →
      tot ≤ walkWeight (routeSubgraph g s t) q := by
  obtain ⟨hd, _, htot⟩ := route_ok_elim h
  have hcl : GClosed (routeSubgraph g s t) := subgraph_gclosed g (allowedKeep s t)
  have hnnH : ∀ e ∈ (routeSubgraph g s t).edges, 0 ≤ e.2.2 :=
    fun e he => hnn e (subgraph_edges_sub he)
  intro q hq
  obtain ⟨hqh, hql, _, hqc⟩ := hq
  have hopt := dijkstra_path_opt (g := routeSubgraph g s t) hcl hnnH hd q hqh hql hqc
  obtain ⟨_, _, hcH, _, _⟩ := dijkstra_path_sound (g := routeSubgraph g s t) hcl hd
  have heq : walkWeight (routeSubgraph g s t) nodes = totalOf g nodes := by
    unfold routeSubgraph
    rw [subgraph_walkWeight_eq nodes (by exact hcH), walkWeight_eq_totalOf]
  rw [htot, ← heq]
  exact hopt

/-- C5 witness: the scenario route's total bounds the listed walk. -/
theorem route_total_minimal_witness :
    (111 / 5 : ℚ) ≤ walkWeight (routeSubgraph gScen "A" "B") ["A", "c01", "B"] :=
  route_total_minimal gScen "A" "B" ["A", "c01", "B"]
    [(segText "A" "c01" (111 / 10), 111 / 10), (segText "c01" "B" (111 / 10), 111 / 10)]
    (111 / 5) gScen_nonneg gScen_route_eval ["A", "c01", "B"] (by decide)

/-! ### C6 -/

/-- C6: whenever a corridor-restricted walk between the endpoints exists (and
edge weights are non-negative, as the data model guarantees), the route
succeeds and is well-formed: a non-empty path beginning at start and ending
at end, exactly one segment per consecutive node pair, each segment carrying
the weight of that edge as found in the original graph, and a total that is
exactly the sum of the returned segment distances. -/
theorem route_success_structure (g : Graph) (s t : String)
    (hnn : ∀ e ∈ g.edges, 0 ≤ e.2.2)
    (hex : ∃ q, isWalk (routeSubgraph g s t) s t q) :
    ∃ nodes segs tot,
      shortest_path_via_cxx g s t = .ok (some nodes, segs, tot) ∧
      nodes ≠ [] ∧ nodes.head? = some s ∧ nodes.getLast? = some t ∧
      segs.length = nodes.length - 1 ∧
      (∀ i : Nat, i + 1 < nodes.length →
        segs[i]! = (segText nodes[i]! nodes[i + 1]! (g.weight nodes[i]! nodes[i + 1]!),
          g.weight nodes[i]! nodes[i + 1]!) ∧
        g.edgeWeight? nodes[i]! nodes[i + 1]! = some (g.weight nodes[i]! nodes[i + 1]!)) ∧
      tot = (segs.map Prod.snd).sum := by
  obtain ⟨q, hq⟩ := hex
  have hcl : GClosed (routeSubgraph g s t) := subgraph_gclosed g (allowedKeep s t)
  have hnnH : ∀ e ∈ (routeSubgraph g s t).edges, 0 ≤ e.2.2 :=
    fun e he => hnn e (subgraph_edges_sub he)
  obtain ⟨p, hd⟩ := dijkstra_path_complete (g := routeSubgraph g s t) hcl hnnH hq
  obtain ⟨hh, hl, hcH, _, _⟩ := dijkstra_path_sound (g := routeSubgraph g s t) hcl hd
  refine ⟨p, stepsOf g p, totalOf g p, ?_, ?_, hh, hl, stepsOf_length g p, ?_, ?_⟩
  · unfold shortest_path_via_cxx
    rw [hd]
  · intro hnil
    rw [hnil] at hh
    simp at hh
  · intro i hlen
    refine ⟨stepsOf_getElem g p i hlen, ?_⟩
    have hadjH := chainAdjB_pairs hcH i hlen
    obtain ⟨w, hw⟩ := adj_edgeWeight?_isSome (subgraph_adj_imp hadjH)
    have hwv : g.weight p[i]! p[i + 1]! = w := by
      unfold Graph.weight
      rw [hw]
      rfl
    rw [hw, hwv]
  · rw [totalOf_eq_sum, stepsOf_map_snd]

/-- C6 witness: the structure theorem applied at the scenario graph. -/
theorem route_success_structure_witness :
    ∃ nodes segs tot,
      shortest_path_via_cxx gScen "A" "B" = .ok (some nodes, segs, tot) ∧
      nodes ≠ [] ∧ nodes.head? = some "A" ∧ nodes.getLast? = some "B" ∧
      segs.length = nodes.length - 1 ∧
      (∀ i : Nat, i + 1 < nodes.length →
        segs[i]! = (segText nodes[i]! nodes[i + 1]!
            (gScen.weight nodes[i]! nodes[i + 1]!),
          gScen.weight nodes[i]! nodes[i + 1]!) ∧
        gScen.edgeWeight? nodes[i]! nodes[i + 1]! =
          some (gScen.weight nodes[i]! nodes[i + 1]!)) ∧
      tot = (segs.map Prod.snd).sum :=
  route_success_structure gScen "A" "B" gScen_nonneg ⟨["A", "c01", "B"], by decide⟩

/-- `add_edge` leaves the node set unchanged. -/
theorem addEdge_nodes (g : Graph) (u v : String) (w : ℚ) :
    (g.addEdge u v w).nodes = g.nodes := by
  unfold Graph.addEdge
  split <;> rfl

/-- Whatever the anchor query's outcome, the post-request state of the shared
graph is the anchor graph — the synthetic node and edge are never removed. -/
theorem anchor_route_post {hav : ℚ → ℚ → ℚ → ℚ → ℚ} {g : Graph} {ulat ulon : ℚ}
    {tgt c : String} (hcc : closestCxx hav g ulat ulon = some c) :
    (anchor_route hav g ulat ulon tgt).2 = anchorGraph hav g ulat ulon c := by
  unfold anchor_route
  split
  · rename_i heq
    rw [hcc] at heq
    exact absurd heq (by simp)
  · rename_i closest heq
    rw [hcc] at heq
    injection heq with heq2
    subst heq2
    split
    · rfl
    · rfl
    · split
      · split <;> rfl
      · rfl

/-! ### C1 (code bug) -/

/-- C1: the anchor flow mutates the canonical graph.  Evaluating the GPS
branch on a concrete graph shows that after the query the shared graph
object still contains the synthetic `_user_location_` node and its synthetic
edge — they are added at app.py:325-326 and never removed, so the claim that
the canonical graph handle contains no synthetic node or edge afterwards is
false on the code. -/
theorem anchor_route_leaves_synthetic_node :
    (anchor_route havConst gDemo 0 0 "B").2.hasNode temp_node = true ∧
    (anchor_route havConst gDemo 0 0 "B").2.adj temp_node "c01" = true := by
  have hcc : closestCxx havConst gDemo 0 0 = some "c01" := rfl
  have hpost := @anchor_route_post havConst gDemo 0 0 "B" "c01" hcc
  rw [hpost]
  constructor
  · have hn : (anchorGraph havConst gDemo 0 0 "c01").nodes =
        (gDemo.addNode temp_node ⟨0, 0, "ground"⟩).nodes := addEdge_nodes _ _ _ _
    have hbase := addNode_hasNode gDemo temp_node ⟨0, 0, "ground"⟩
    unfold Graph.hasNode Graph.labels at hbase ⊢
    rw [hn]
    exact hbase
  · have hfresh : ∀ e ∈ gDemo.edges, e.1 ≠ temp_node ∧ e.2.1 ≠ temp_node := by decide
    have hedges := @anchorGraph_edges havConst gDemo 0 0 "c01" hfresh
    unfold Graph.adj
    rw [hedges, List.any_append]
    have h1 : gDemo.edges.any (edgeMatches temp_node "c01") = false := by decide
    rw [h1]
    simp [edgeMatches]

/-! ### C7 -/

/-- C7: on a fresh canonical graph, a successful anchor route with a path of
N nodes starting at the synthetic node produces exactly N−1 segments (the
first segment is rewritten, not duplicated), and for N ≥ 2 the first segment
reads "Your location → ⟨first corridor hop⟩" and carries exactly the
first-hop distance computed for the synthetic edge. -/
theorem anchor_first_segment (hav : ℚ → ℚ → ℚ → ℚ → ℚ) (g : Graph) (ulat ulon : ℚ)
    (tgt : String) (nodes : List String) (segs : List (String × ℚ)) (total : ℚ)
    (gpost : Graph)
    (hfresh1 : temp_node ∉ g.labels)
    (hfresh2 : ∀ e ∈ g.edges, e.1 ≠ temp_node ∧ e.2.1 ≠ temp_node)
    (h : anchor_route hav g ulat ulon tgt = (.routed nodes segs total, gpost)) :
    segs.length = nodes.length - 1 ∧ nodes.head? = some temp_node ∧
    (1 < nodes.length → ∃ c : String, closestCxx hav g ulat ulon = some c ∧
      nodes[1]! = c ∧
      segs.head? = some ("Your location → " ++ c ++ " (" ++
        fmt1 (hav ulat ulon (latOf g c) (lonOf g c)) ++ " m)",
        hav ulat ulon (latOf g c) (lonOf g c))) := by
  unfold anchor_route at h
  split at h
  · exact absurd h (by simp)
  · rename_i closest heq
    split at h
    · exact absurd h (by simp)
    · exact absurd h (by simp)
    · rename_i nodes0 segs0 tot0 hr
      obtain ⟨hd, hsegs0, _⟩ := route_ok_elim hr
      have hcl : GClosed (routeSubgraph (anchorGraph hav g ulat ulon closest)
          temp_node tgt) := subgraph_gclosed _ _
      obtain ⟨hh, _, hcH, _, _⟩ :=
        dijkstra_path_sound (g := routeSubgraph (anchorGraph hav g ulat ulon closest)
          temp_node tgt) hcl hd
      have hlen0 : (stepsOf (anchorGraph hav g ulat ulon closest) nodes0).length =
          nodes0.length - 1 := stepsOf_length _ _
      split at h
      · rename_i hcond
        have hlen : 1 < nodes0.length := by
          rw [Bool.and_eq_true, Bool.and_eq_true, Bool.and_eq_true] at hcond
          exact of_decide_eq_true hcond.2
        have hsne : segs0 ≠ [] := by
          rw [hsegs0]
          intro hnil
          rw [hnil] at hlen0
          simp at hlen0
          omega
        have h0eq : nodes0[0]! = temp_node := head?_getElemBang hh
        have hadjH := chainAdjB_pairs hcH 0 (by omega)
        rw [h0eq] at hadjH
        have hadj2 : (anchorGraph hav g ulat ulon closest).adj temp_node nodes0[1]! =
            true := subgraph_adj_imp hadjH
        have hcmem : closest ∈ g.labels.filter is_cxx := by
          have heq2 : firstMinBy (fun n => hav ulat ulon (latOf g n) (lonOf g n))
              (g.labels.filter is_cxx) = some closest := heq
          exact firstMinBy_mem heq2
        have hclab : closest ∈ g.labels := (List.mem_filter.mp hcmem).1
        have hct : closest ≠ temp_node := by
          intro heqq
          rw [heqq] at hclab
          exact hfresh1 hclab
        obtain ⟨hveq, hw⟩ := anchorGraph_adj_temp hfresh2 hct hadj2
        split at h
        · rename_i fed hfed
          rw [hw] at hfed
          injection hfed with hfed2
          subst hfed2
          simp only [Prod.mk.injEq, AnchorOutcome.routed.injEq] at h
          obtain ⟨⟨hn, hs, ht⟩, hg⟩ := h
          subst hn
          subst hs
          refine ⟨?_, hh, ?_⟩
          · rw [List.length_set, hsegs0]
            exact hlen0
          · intro _
            refine ⟨closest, heq, hveq, ?_⟩
            have hset := set_zero_head?
              (("Your location → " ++ nodes0[1]! ++ " (" ++
                fmt1 (hav ulat ulon (latOf g closest) (lonOf g closest)) ++ " m)",
                hav ulat ulon (latOf g closest) (lonOf g closest)))
              (l := segs0) hsne
            rw [hveq] at hset
            rw [hveq]
            exact hset
        · rename_i hfed
          rw [hw] at hfed
          exact absurd h (by simp)
      · rename_i hcond
        simp only [Prod.mk.injEq, AnchorOutcome.routed.injEq] at h
        obtain ⟨⟨hn, hs, ht⟩, hg⟩ := h
        subst hn
        subst hs
        refine ⟨by rw [hsegs0]; exact hlen0, hh, ?_⟩
        intro hlen
        exfalso
        apply hcond
        have h1 : segs0.isEmpty = false := by
          have hsne : segs0 ≠ [] := by
            rw [hsegs0]
            intro hnil
            rw [hnil] at hlen0
            simp at hlen0
            omega
          cases segs0 with
          | nil => exact absurd rfl hsne
          | cons a t => rfl
        have h2 : nodes0.isEmpty = false := by
          cases nodes0 with
          | nil => simp at hh
          | cons a t => rfl
        rw [h1, h2, hh, decide_eq_true hlen]
        simp

/-- Concrete evaluation of the anchor flow on the demo graph. -/
theorem gDemo_anchor_eval : anchor_route havConst gDemo 0 0 "B" =
    (.routed [temp_node, "c01", "B"]
      [("Your location → " ++ "c01" ++ " (" ++ fmt1 10 ++ " m)", 10),
       (segText "c01" "B" 5, 5)]
      15,
     anchorGraph havConst gDemo 0 0 "c01") := by
  repeat
    simp [anchor_route, closestCxx, anchorGraph, temp_node, havConst, latOf, lonOf,
      Graph.addNode, Graph.addEdge, shortest_path_via_cxx, dijkstra_path, dijkstraRun,
      dijkstraLoop, candidatesOf, candsFor, firstMinBy, settledHas, Graph.neighbors,
      Graph.weight, Graph.edgeWeight?, edgeMatches, routeSubgraph, Graph.subgraph,
      allowedKeep, Graph.hasNode, Graph.labels, gDemo, stepsOf, totalOf, is_cxx]
  norm_num

/-- C7 witness: the segment-rewrite theorem applied at the demo anchor query. -/
theorem anchor_first_segment_witness :
    ([("Your location → " ++ "c01" ++ " (" ++ fmt1 10 ++ " m)", (10 : ℚ)),
      (segText "c01" "B" 5, 5)].length = [temp_node, "c01", "B"].length - 1) ∧
    [temp_node, "c01", "B"].head? = some temp_node ∧
    (1 < [temp_node, "c01", "B"].length → ∃ c : String,
      closestCxx havConst gDemo 0 0 = some c ∧
      [temp_node, "c01", "B"][1]! = c ∧
      ([("Your location → " ++ "c01" ++ " (" ++ fmt1 10 ++ " m)", (10 : ℚ)),
        (segText "c01" "B" 5, 5)].head? =
        some ("Your location → " ++ c ++ " (" ++
          fmt1 (havConst 0 0 (latOf gDemo c) (lonOf gDemo c)) ++ " m)",
          havConst 0 0 (latOf gDemo c) (lonOf gDemo c)))) :=
  anchor_first_segment havConst gDemo 0 0 "B" [temp_node, "c01", "B"]
    [("Your location → " ++ "c01" ++ " (" ++ fmt1 10 ++ " m)", (10 : ℚ)),
     (segText "c01" "B" 5, 5)] 15 (anchorGraph havConst gDemo 0 0 "c01")
    (by decide) (by decide) gDemo_anchor_eval

end Wayfinding
